import Mathlib

/-!
# Verification of the kibela-toc core (`kibela_toc.py`)

Shallow embedding of the pure text-transformation core of
`KibelaTOCGenerator`: heading extraction (`extract_headings`), anchor slug
generation (`generate_anchor`), TOC rendering (`generate_toc`), TOC block
location (`find_existing_toc`) and splicing (`insert_or_update_toc`), plus
the driver logic of `process_note` stripped of its network I/O.

Python strings are modelled as `List Char` (the `String` wrappers convert
via `String.data` / `String.mk`).  Python's whitespace notion (`str.strip`
and the regex class `\s`) is modelled by the six ASCII whitespace
characters; the Unicode-aware word-character class `\w` is modelled as
ASCII alphanumerics, the underscore, and every non-ASCII character (the
only non-ASCII text this tool manipulates, such as `目次`, consists of
letters).  `str.lower` is modelled on the ASCII range.
-/

/-- The whitespace characters of Python's `str.strip()` / regex `\s`
(ASCII fragment). -/
def pyIsSpace (c : Char) : Bool :=
  c == ' ' || c == '\t' || c == '\n' || c == '\r' || c == '\x0b' || c == '\x0c'

/-- Python `str.strip()`: drop whitespace from both ends. -/
def pyStrip (s : List Char) : List Char :=
  ((s.dropWhile pyIsSpace).reverse.dropWhile pyIsSpace).reverse

/-- Python `content.split('\n')`: always returns at least one piece; the
pieces contain no `'\n'`. -/
def splitLines : List Char → List (List Char)
  | [] => [[]]
  | c :: cs =>
    if c = '\n' then [] :: splitLines cs
    else
      match splitLines cs with
      | [] => [[c]]
      | l :: ls => (c :: l) :: ls

/-- Python `'\n'.join(lines)`. -/
def joinLines (ls : List (List Char)) : List Char :=
  match ls with
  | [] => []
  | [l] => l
  | l :: ls => l ++ '\n' :: joinLines ls

/-- Python `str.lower()` on the ASCII range (`A`-`Z` map to `a`-`z`,
everything else is unchanged). -/
def pyToLower (c : Char) : Char :=
  if 65 ≤ c.toNat ∧ c.toNat ≤ 90 then Char.ofNat (c.toNat + 32) else c

/-- The regex class `\w` of `generate_anchor`: word characters.  ASCII
alphanumerics and `_`; non-ASCII characters are treated as word
characters (see the module docstring). -/
def isWordChar (c : Char) : Bool :=
  c.isAlphanum || c == '_' || decide (128 ≤ c.toNat)

/-- The characters removed by `re.sub(r'[*_`]', '', text)`. -/
def isFmtChar (c : Char) : Bool :=
  c == '*' || c == '_' || c == '`'

/-- The characters kept by `re.sub(r'[^\w\s-]', '', ...)`. -/
def anchorKeep (c : Char) : Bool :=
  isWordChar c || pyIsSpace c || c == '-'

/-- The character class `[\s_-]` whose runs are collapsed to `'-'`. -/
def isSep (c : Char) : Bool :=
  pyIsSpace c || c == '_' || c == '-'

/-- `re.sub(r'[\s_-]+', '-', s)`: the Boolean flag records whether the
previous character belonged to a separator run already replaced. -/
def collapseAux : Bool → List Char → List Char
  | _, [] => []
  | prevSep, c :: cs =>
    if isSep c then
      if prevSep then collapseAux true cs else '-' :: collapseAux true cs
    else c :: collapseAux false cs

/-- Python `str.strip('-')`: drop hyphens from both ends. -/
def stripHyphens (s : List Char) : List Char :=
  ((s.dropWhile (· == '-')).reverse.dropWhile (· == '-')).reverse

/-- `KibelaTOCGenerator.generate_anchor`, character-list level: remove
`*`/`_`/backtick, lowercase, drop everything but word characters,
whitespace and hyphens, collapse separator runs to single hyphens, trim
hyphens at the ends. -/
def anchorChars (text : List Char) : List Char :=
  stripHyphens (collapseAux false (((text.filter (fun c => !isFmtChar c)).map
    pyToLower).filter anchorKeep))

/-- `KibelaTOCGenerator.generate_anchor` (source lines 255-263). -/
def generate_anchor (text : String) : String :=
  String.mk (anchorChars text.data)

/-- A heading record as built by `extract_headings`
(`{'level': …, 'text': …, 'anchor': …, 'line': …}`). -/
structure Heading where
  level : Nat
  text : List Char
  anchor : List Char
  line : Nat
  deriving Repr, DecidableEq

/-- The regex match `re.match(r'^(#{1,6})\s+(.+)$', line)` applied, as in
the source, to an already-stripped line, returning (level, text) where
`text` is `group(2).strip()`.  Because the line has been stripped, the
greedy `\s+` ends exactly at the first non-whitespace character after the
`#` run and group 2 carries no surrounding whitespace. -/
def matchHeading (l : List Char) : Option (Nat × List Char) :=
  let c := (l.takeWhile (· == '#')).length
  let rest := l.dropWhile (· == '#')
  if 1 ≤ c ∧ c ≤ 6 then
    match rest with
    | [] => none
    | r :: _ =>
      if pyIsSpace r then
        let t := pyStrip (rest.dropWhile pyIsSpace)
        if t = [] then none else some (c, t)
      else none
  else none

/-- The loop body of `extract_headings`: walk the lines carrying the
1-based line counter. -/
def extractAux (maxDepth : Nat) : Nat → List (List Char) → List Heading
  | _, [] => []
  | lineNum, l :: ls =>
    match matchHeading (pyStrip l) with
    | some (lv, tx) =>
      if lv ≤ maxDepth then
        ⟨lv, tx, anchorChars tx, lineNum⟩ :: extractAux maxDepth (lineNum + 1) ls
      else extractAux maxDepth (lineNum + 1) ls
    | none => extractAux maxDepth (lineNum + 1) ls

/-- `KibelaTOCGenerator.extract_headings` (source lines 229-253). -/
def extract_headings (content : String) (maxDepth : Nat) : List Heading :=
  extractAux maxDepth 1 (splitLines content.data)

/-- One rendered TOC entry: `f"{indent}- [{text}](#{anchor})"` with
`indent = "  " * (level - 1)`. -/
def tocEntryLine (h : Heading) : List Char :=
  List.replicate ((h.level - 1) * 2) ' ' ++
    ['-', ' ', '['] ++ h.text ++ [']', '(', '#'] ++ h.anchor ++ [')']

/-- The line list built by `generate_toc` before joining (header, blank,
entries, trailing blank). -/
def tocLines (headings : List Heading) : List (List Char) :=
  "## 目次".data :: [] :: headings.map tocEntryLine ++ [[]]

/-- `KibelaTOCGenerator.generate_toc` (source lines 265-278). -/
def generate_toc (headings : List Heading) : String :=
  if headings = [] then "" else String.mk (joinLines (tocLines headings))

/-- The three recognized TOC header strings of `find_existing_toc`. -/
def isTocHeader (l : List Char) : Bool :=
  l == "## 目次".data || l == "## Table of Contents".data || l == "## TOC".data

/-- The end-of-block heading test of `find_existing_toc`:
`re.match(r'^#{1,2}\s+', next_line) and not next_line.startswith('###')`. -/
def isH12 (l : List Char) : Bool :=
  let c := (l.takeWhile (· == '#')).length
  (decide (1 ≤ c ∧ c ≤ 2) &&
    (match l.dropWhile (· == '#') with
     | r :: _ => pyIsSpace r
     | [] => false)) &&
  !(['#', '#', '#'].isPrefixOf l)

/-- The trigger of the "content after empty lines" branch:
`next_line and not next_line.startswith('-') and not
next_line.startswith('  -')` on the stripped line. -/
def isContentLine (l : List Char) : Bool :=
  !(decide (l = [])) && !(['-'].isPrefixOf l) && !([' ', ' ', '-'].isPrefixOf l)

/-- The outer loop of `find_existing_toc`: first line (at absolute index
counting from `base`) whose stripped text is a recognized header. -/
def findTocStart (base : Nat) : List (List Char) → Option Nat
  | [] => none
  | l :: ls =>
    if isTocHeader (pyStrip l) then some base else findTocStart (base + 1) ls

/-- The backward scans of `find_existing_toc`
(`for k in range(hi, i, -1): if lines[k].strip(): … = k + 1`): greatest
`k` with `i < k ≤ hi` whose line is non-blank, plus one.  (At `k = 0` the
Python range is empty since `i ≥ 0`.) -/
def backScanAux (lines : List (List Char)) (i : Nat) : Nat → Option Nat
  | 0 => none
  | k + 1 =>
    if k + 1 ≤ i then none
    else if pyStrip (lines.getD (k + 1) []) = [] then backScanAux lines i k
    else some (k + 2)

/-- The inner forward loop of `find_existing_toc`
(`for j in range(i + 1, len(lines))`), driven by the number `fuel` of
remaining iterations (`fuel = len(lines) - j` at every call): at each
`j`, first the level-1/level-2 heading test, then (only for `j > i + 1`)
the content-after-blank test, which triggers a backward scan over
`range(j - 1, i, -1)`; the loop breaks there whether or not the backward
scan finds a line.  Returns the value of `toc_end` when the loop leaves. -/
def endScanAux (lines : List (List Char)) (i : Nat) : Nat → Nat → Option Nat
  | 0, _ => none
  | fuel + 1, j =>
    let nl := pyStrip (lines.getD j [])
    if isH12 nl then some j
    else if j > i + 1 && isContentLine nl then backScanAux lines i (j - 1)
    else endScanAux lines i fuel (j + 1)

/-- `toc_end` as computed by `find_existing_toc` for a header found at
index `i`: the inner scan's result, or, if that left `toc_end` as `None`,
the fallback backward scan over `range(len(lines) - 1, i, -1)`. -/
def findTocEnd (lines : List (List Char)) (i : Nat) : Option Nat :=
  match endScanAux lines i (lines.length - (i + 1)) (i + 1) with
  | some e => some e
  | none => backScanAux lines i (lines.length - 1)

/-- `KibelaTOCGenerator.find_existing_toc` (source lines 280-321). -/
def find_existing_toc (content : String) : Option Nat × Option Nat :=
  let lines := splitLines content.data
  match findTocStart 0 lines with
  | none => (none, none)
  | some i => (some i, findTocEnd lines i)

/-- The `while insert_pos < len(lines) and not lines[insert_pos].strip()`
loop of `insert_or_update_toc`, driven by the number of remaining
iterations (`fuel = len(lines) - p` at every call). -/
def skipBlanksAux (lines : List (List Char)) : Nat → Nat → Nat
  | 0, p => p
  | fuel + 1, p =>
    if pyStrip (lines.getD p []) = [] then skipBlanksAux lines fuel (p + 1) else p

/-- The insertion position of `insert_or_update_toc`: after a leading
`'# '` title line and any blank lines that follow it, else 0. -/
def insertPos (lines : List (List Char)) : Nat :=
  match lines with
  | [] => 0
  | l :: _ =>
    if ['#', ' '].isPrefixOf l then skipBlanksAux lines (lines.length - 1) 1 else 0

/-- `KibelaTOCGenerator.insert_or_update_toc` (source lines 323-346). -/
def insert_or_update_toc (content : String) (toc : String) : String :=
  let lines := splitLines content.data
  match find_existing_toc content with
  | (some s, some e) =>
    String.mk (joinLines (lines.take s ++ splitLines toc.data ++ lines.drop e))
  | _ =>
    let p := insertPos lines
    String.mk (joinLines (lines.take p ++ [[]] ++ splitLines toc.data ++ lines.drop p))

/-- Outcome of one `process_note` invocation, network I/O stripped:
`success`/`message` mirror the returned dict, `finalContent` is the note
body after the invocation (the original when nothing is written), `wrote`
records whether `update_note_content` would have been called. -/
structure NoteResult where
  success : Bool
  message : String
  finalContent : String
  wrote : Bool
  deriving Repr, DecidableEq

/-- The core of `KibelaTOCGenerator.process_note` (source lines 348-408):
extraction, the `if not headings` early return, TOC generation, splicing,
and the dry-run guard.  The remote update is modelled as succeeding. -/
def process_note_core (content : String) (depth : Nat) (dryRun : Bool) : NoteResult :=
  let headings := extract_headings content depth
  if headings = [] then ⟨true, "No headings found", content, false⟩
  else
    let toc := generate_toc headings
    let newContent := insert_or_update_toc content toc
    if dryRun then ⟨true, "Dry run completed", content, false⟩
    else ⟨true, "Note updated successfully", newContent, true⟩

/-- The extract → render → splice pipeline on a document, as composed by
`process_note` when headings exist (no guard: the raw composition named
by the idempotence claim). -/
def runPipeline (content : String) (depth : Nat) : String :=
  insert_or_update_toc content (generate_toc (extract_headings content depth))

/-- The end scan exactly as the locator claim words it: the heading rule
and the content rule per line, where the content rule yields one past the
last non-blank line strictly between the header and the triggering line
(and nothing when no such line exists), and the remainder fallback
applies only when neither condition ever triggers. -/
def claimEndScanAux (lines : List (List Char)) (i : Nat) : Nat → Nat → Option Nat
  | 0, _ => backScanAux lines i (lines.length - 1)
  | fuel + 1, j =>
    let nl := pyStrip (lines.getD j [])
    if isH12 nl then some j
    else if j > i + 1 && isContentLine nl then backScanAux lines i (j - 1)
    else claimEndScanAux lines i fuel (j + 1)

/-- The TOC locator as described by the boundary-detection claim: start
is the first recognized header line; the end bound follows
`claimEndScanAux` (remainder fallback restricted to the case where
neither end condition triggers). -/
def claimLocator (content : String) : Option Nat × Option Nat :=
  let lines := splitLines content.data
  match findTocStart 0 lines with
  | none => (none, none)
  | some i => (some i, claimEndScanAux lines i (lines.length - (i + 1)) (i + 1))

/-- The anchor claim's reading of step (4): replace every maximal run of
whitespace/underscore/hyphen characters with a single hyphen. -/
def collapseSpec : List Char → List Char
  | [] => []
  | c :: cs =>
    if isSep c then '-' :: collapseSpec (cs.dropWhile (fun d => isSep d))
    else c :: collapseSpec cs
termination_by s => s.length
decreasing_by
  · simp only [List.length_cons]
    exact Nat.lt_succ_of_le (List.dropWhile_sublist _).length_le
  · simp only [List.length_cons]
    omega

/-- The anchor pipeline with step (4) in the claim's maximal-run
formulation, to be compared with `anchorChars`. -/
def anchorCharsSpec (text : List Char) : List Char :=
  stripHyphens (collapseSpec (((text.filter (fun c => !isFmtChar c)).map
    pyToLower).filter anchorKeep))

/-- A line index at which the inner forward scan of `find_existing_toc`
stops: either the level-1/level-2 heading test fires, or (strictly after
`start + 1`) the content-after-blank test fires. -/
def trigAt (lines : List (List Char)) (i j : Nat) : Prop :=
  isH12 (pyStrip (lines.getD j [])) = true ∨
    (i + 1 < j ∧ isContentLine (pyStrip (lines.getD j [])) = true)

instance decTrigAt (lines : List (List Char)) (i j : Nat) :
    Decidable (trigAt lines i j) := by
  unfold trigAt
  infer_instance

/-- Number of lines of a document whose stripped text is one of the three
recognized TOC header strings. -/
def countTocHeaders (content : String) : Nat :=
  (splitLines content.data).countP (fun l => isTocHeader (pyStrip l))

/-! ## Basic lemmas about lines and stripping -/

theorem splitLines_cons (c : Char) (cs : List Char) :
    splitLines (c :: cs) =
      if c = '\n' then [] :: splitLines cs
      else
        match splitLines cs with
        | [] => [[c]]
        | l :: ls => (c :: l) :: ls := rfl

theorem splitLines_ne_nil (s : List Char) : splitLines s ≠ [] := by
  induction s with
  | nil => simp [splitLines]
  | cons c cs ih =>
    rw [splitLines_cons]
    split
    · simp
    · cases h : splitLines cs with
      | nil => simp
      | cons l ls => simp

theorem not_newline_mem_splitLines (s : List Char) :
    ∀ l ∈ splitLines s, '\n' ∉ l := by
  induction s with
  | nil => intro l hl; simp [splitLines] at hl; simp [hl]
  | cons c cs ih =>
    intro l hl
    by_cases hc : c = '\n'
    · rw [splitLines_cons, if_pos hc] at hl
      rcases List.mem_cons.mp hl with rfl | hl
      · simp
      · exact ih l hl
    · cases h : splitLines cs with
      | nil => exact absurd h (splitLines_ne_nil cs)
      | cons l0 ls =>
        rw [splitLines_cons, if_neg hc, h] at hl
        rcases List.mem_cons.mp hl with rfl | hl
        · intro hm
          rcases List.mem_cons.mp hm with h' | h'
          · exact hc h'.symm
          · exact ih l0 (h ▸ List.mem_cons_self _ _) h'
        · exact ih l (h ▸ List.mem_cons_of_mem _ hl)

theorem splitLines_no_newline {l : List Char} (h : '\n' ∉ l) :
    splitLines l = [l] := by
  induction l with
  | nil => rfl
  | cons c cs ih =>
    have hc : c ≠ '\n' := fun hc => h (hc ▸ List.mem_cons_self _ _)
    have hcs : '\n' ∉ cs := fun hm => h (List.mem_cons_of_mem _ hm)
    rw [splitLines_cons, if_neg hc, ih hcs]

theorem splitLines_append_newline {l t : List Char} (h : '\n' ∉ l) :
    splitLines (l ++ '\n' :: t) = l :: splitLines t := by
  induction l with
  | nil =>
    rw [List.nil_append, splitLines_cons, if_pos rfl]
  | cons c cs ih =>
    have hc : c ≠ '\n' := fun hc => h (hc ▸ List.mem_cons_self _ _)
    have hcs : '\n' ∉ cs := fun hm => h (List.mem_cons_of_mem _ hm)
    rw [List.cons_append, splitLines_cons, if_neg hc, ih hcs]

theorem splitLines_joinLines {L : List (List Char)} (hne : L ≠ [])
    (h : ∀ l ∈ L, '\n' ∉ l) : splitLines (joinLines L) = L := by
  induction L with
  | nil => exact absurd rfl hne
  | cons l L ih =>
    rcases L with _ | ⟨l', L'⟩
    · exact splitLines_no_newline (h l (List.mem_cons_self _ _))
    · have hl : '\n' ∉ l := h l (List.mem_cons_self _ _)
      have hrest : ∀ m ∈ l' :: L', '\n' ∉ m :=
        fun m hm => h m (List.mem_cons_of_mem _ hm)
      show splitLines (l ++ '\n' :: joinLines (l' :: L')) = _
      rw [splitLines_append_newline hl, ih (by simp) hrest]

theorem pyStrip_eq_nil_iff {s : List Char} :
    pyStrip s = [] ↔ ∀ c ∈ s, pyIsSpace c := by
  unfold pyStrip
  rw [List.reverse_eq_nil_iff, List.dropWhile_eq_nil_iff]
  constructor
  · intro h c hc
    rcases List.mem_append.mp ((List.takeWhile_append_dropWhile pyIsSpace s) ▸ hc)
      with hc' | hc'
    · exact List.mem_takeWhile_imp hc'
    · exact h c (by simpa using hc')
  · intro h c hc
    exact h c (List.dropWhile_subset _ (by simpa using hc))

theorem mem_of_mem_pyStrip {s : List Char} {c : Char} (h : c ∈ pyStrip s) :
    c ∈ s := by
  unfold pyStrip at h
  rw [List.mem_reverse] at h
  have h1 := List.dropWhile_subset (l := (s.dropWhile pyIsSpace).reverse) pyIsSpace h
  rw [List.mem_reverse] at h1
  exact List.dropWhile_subset _ h1

theorem pyStrip_ne_nil {s : List Char} {c : Char} (hc : c ∈ s)
    (hns : ¬ pyIsSpace c) : pyStrip s ≠ [] := by
  intro h
  exact hns (pyStrip_eq_nil_iff.mp h c hc)

/-! ## Characterizations of the locator scans -/

theorem findTocStart_eq_none_iff {base : Nat} {ls : List (List Char)} :
    findTocStart base ls = none ↔ ∀ l ∈ ls, isTocHeader (pyStrip l) = false := by
  induction ls generalizing base with
  | nil => simp [findTocStart]
  | cons l ls ih =>
    rw [findTocStart]
    by_cases h : isTocHeader (pyStrip l)
    · simp [h]
    · simp only [if_neg h, ih, List.mem_cons]
      constructor
      · intro hall m hm
        rcases hm with rfl | hm
        · exact Bool.eq_false_iff.mpr h
        · exact hall m hm
      · intro hall m hm
        exact hall m (Or.inr hm)

theorem findTocStart_eq_some_iff {base r : Nat} {ls : List (List Char)} :
    findTocStart base ls = some r ↔
      ∃ j, j < ls.length ∧ r = base + j ∧
        isTocHeader (pyStrip (ls.getD j [])) = true ∧
        ∀ m, m < j → isTocHeader (pyStrip (ls.getD m [])) = false := by
  induction ls generalizing base r with
  | nil => simp [findTocStart]
  | cons l ls ih =>
    rw [findTocStart]
    by_cases h : isTocHeader (pyStrip l)
    · simp only [if_pos h]
      constructor
      · intro he
        refine ⟨0, by simp, by simpa using (Option.some_injective _ he).symm, by simpa using h, ?_⟩
        intro m hm; omega
      · rintro ⟨j, hj, rfl, hhdr, hmin⟩
        cases j with
        | zero => simp
        | succ j =>
          have := hmin 0 (Nat.succ_pos j)
          simp only [List.getD_cons_zero] at this
          rw [h] at this
          exact absurd this (by simp)
    · simp only [if_neg h, ih]
      constructor
      · rintro ⟨j, hj, hr, hhdr, hmin⟩
        refine ⟨j + 1, by simpa using Nat.succ_lt_succ hj, by omega, by simpa using hhdr, ?_⟩
        intro m hm
        cases m with
        | zero => simpa using Bool.eq_false_iff.mpr h
        | succ m => simpa using hmin m (by omega)
      · rintro ⟨j, hj, hr, hhdr, hmin⟩
        cases j with
        | zero =>
          simp only [List.getD_cons_zero] at hhdr
          exact absurd hhdr (Bool.eq_false_iff.mpr h ▸ by simp [Bool.eq_false_iff.mpr h])
        | succ j =>
          refine ⟨j, by simpa using Nat.lt_of_succ_lt_succ hj, by omega, by simpa using hhdr, ?_⟩
          intro m hm
          have := hmin (m + 1) (by omega)
          simpa using this

theorem findTocStart_append {base : Nat} {pre rest : List (List Char)}
    {l : List Char} (hpre : ∀ x ∈ pre, isTocHeader (pyStrip x) = false)
    (hl : isTocHeader (pyStrip l) = true) :
    findTocStart base (pre ++ l :: rest) = some (base + pre.length) := by
  induction pre generalizing base with
  | nil => simp [findTocStart, hl]
  | cons x pre ih =>
    rw [List.cons_append, findTocStart,
      if_neg (by simpa using hpre x (List.mem_cons_self _ _))]
    rw [ih (fun y hy => hpre y (List.mem_cons_of_mem _ hy))]
    simp only [List.length_cons]
    congr 1
    omega

theorem backScanAux_eq_none_iff {lines : List (List Char)} {i k : Nat} :
    backScanAux lines i k = none ↔
      ∀ m, i < m → m ≤ k → pyStrip (lines.getD m []) = [] := by
  induction k with
  | zero =>
    simp only [backScanAux, true_iff]
    intro m h1 h2
    omega
  | succ k ih =>
    rw [backScanAux]
    by_cases hik : k + 1 ≤ i
    · simp only [if_pos hik, true_iff]
      intro m h1 h2
      omega
    · rw [if_neg hik]
      by_cases hb : pyStrip (lines.getD (k + 1) []) = []
      · simp only [if_pos hb, ih]
        constructor
        · intro hall m h1 h2
          rcases Nat.lt_or_ge m (k + 1) with hm | hm
          · exact hall m h1 (by omega)
          · have : m = k + 1 := by omega
            rw [this]; exact hb
        · intro hall m h1 h2
          exact hall m h1 (by omega)
      · simp only [if_neg hb]
        constructor
        · intro h; exact absurd h (by simp)
        · intro hall
          exact absurd (hall (k + 1) (by omega) (le_refl _)) hb

theorem backScanAux_eq_some_iff {lines : List (List Char)} {i k r : Nat} :
    backScanAux lines i k = some r ↔
      ∃ m, r = m + 1 ∧ i < m ∧ m ≤ k ∧ pyStrip (lines.getD m []) ≠ [] ∧
        ∀ m', m < m' → m' ≤ k → pyStrip (lines.getD m' []) = [] := by
  induction k with
  | zero =>
    rw [backScanAux]
    constructor
    · intro h; exact absurd h (by simp)
    · rintro ⟨m, _, h1, h2, _⟩; omega
  | succ k ih =>
    rw [backScanAux]
    by_cases hik : k + 1 ≤ i
    · rw [if_pos hik]
      constructor
      · intro h; exact absurd h (by simp)
      · rintro ⟨m, _, h1, h2, _⟩; omega
    · rw [if_neg hik]
      by_cases hb : pyStrip (lines.getD (k + 1) []) = []
      · simp only [if_pos hb, ih]
        constructor
        · rintro ⟨m, rfl, h1, h2, h3, h4⟩
          refine ⟨m, rfl, h1, by omega, h3, ?_⟩
          intro m' hm1 hm2
          rcases Nat.lt_or_ge m' (k + 1) with hm | hm
          · exact h4 m' hm1 (by omega)
          · have : m' = k + 1 := by omega
            rw [this]; exact hb
        · rintro ⟨m, rfl, h1, h2, h3, h4⟩
          have hmk : m ≠ k + 1 := by
            intro h; rw [h] at h3; exact h3 hb
          refine ⟨m, rfl, h1, by omega, h3, ?_⟩
          intro m' hm1 hm2
          exact h4 m' hm1 (by omega)
      · simp only [if_neg hb, Option.some_inj]
        constructor
        · rintro rfl
          exact ⟨k + 1, rfl, by omega, le_refl _, hb, fun m' h1 h2 => by omega⟩
        · rintro ⟨m, rfl, h1, h2, h3, h4⟩
          rcases Nat.lt_or_ge m (k + 1) with hm | hm
          · exact absurd (h4 (k + 1) hm (le_refl _)) hb
          · have : m = k + 1 := by omega
            rw [this]

theorem endScanAux_succ (lines : List (List Char)) (i fuel j : Nat) :
    endScanAux lines i (fuel + 1) j =
      if isH12 (pyStrip (lines.getD j [])) then some j
      else if j > i + 1 && isContentLine (pyStrip (lines.getD j [])) then
        backScanAux lines i (j - 1)
      else endScanAux lines i fuel (j + 1) := rfl

theorem endScanAux_eq_none {lines : List (List Char)} {i : Nat} {fuel j : Nat}
    (hf : j + fuel = lines.length)
    (h : ∀ j', j ≤ j' → j' < lines.length → ¬ trigAt lines i j') :
    endScanAux lines i fuel j = none := by
  induction fuel generalizing j with
  | zero => rfl
  | succ fuel ih =>
    have hnt : ¬ trigAt lines i j := h j (le_refl _) (by omega)
    have hH : ¬ (isH12 (pyStrip (lines.getD j [])) = true) :=
      fun hh => hnt (Or.inl hh)
    have hC : ¬ ((j > i + 1 && isContentLine (pyStrip (lines.getD j []))) = true) := by
      intro hc
      rw [Bool.and_eq_true] at hc
      exact hnt (Or.inr ⟨by simpa using hc.1, hc.2⟩)
    rw [endScanAux_succ, if_neg hH, if_neg hC]
    exact ih (by omega) (fun j' h1 h2 => h j' (by omega) h2)

theorem endScanAux_eq_of_first {lines : List (List Char)} {i fuel j j0 : Nat}
    (hf : j + fuel = lines.length) (h1 : j ≤ j0) (h2 : j0 < lines.length)
    (htrig : trigAt lines i j0)
    (hmin : ∀ j', j ≤ j' → j' < j0 → ¬ trigAt lines i j') :
    endScanAux lines i fuel j =
      if isH12 (pyStrip (lines.getD j0 [])) then some j0
      else backScanAux lines i (j0 - 1) := by
  induction fuel generalizing j with
  | zero => omega
  | succ fuel ih =>
    by_cases hj : j = j0
    · subst hj
      by_cases hH : isH12 (pyStrip (lines.getD j [])) = true
      · rw [endScanAux_succ, if_pos hH, if_pos hH]
      · rcases htrig with hh | ⟨hlt, hcont⟩
        · exact absurd hh hH
        · rw [endScanAux_succ, if_neg hH,
            if_pos (show (j > i + 1 && isContentLine (pyStrip (lines.getD j []))) = true by
              rw [Bool.and_eq_true]
              exact ⟨by simpa using hlt, hcont⟩),
            if_neg hH]
    · have hjlt : j < j0 := by omega
      have hnt : ¬ trigAt lines i j := hmin j (le_refl _) hjlt
      have hH : ¬ (isH12 (pyStrip (lines.getD j [])) = true) :=
        fun hh => hnt (Or.inl hh)
      have hC : ¬ ((j > i + 1 && isContentLine (pyStrip (lines.getD j []))) = true) := by
        intro hc
        rw [Bool.and_eq_true] at hc
        exact hnt (Or.inr ⟨by simpa using hc.1, hc.2⟩)
      rw [endScanAux_succ, if_neg hH, if_neg hC]
      exact ih (by omega) (by omega) (fun j' h1' h2' => hmin j' (by omega) h2')

theorem findTocEnd_eq_none_of_blank {lines : List (List Char)} {i : Nat}
    (hi : i < lines.length)
    (hb : ∀ j, i < j → j < lines.length → pyStrip (lines.getD j []) = []) :
    findTocEnd lines i = none := by
  have hnt : ∀ j', i + 1 ≤ j' → j' < lines.length → ¬ trigAt lines i j' := by
    intro j' h1 h2 ht
    have hbj := hb j' (by omega) h2
    rcases ht with hh | ⟨_, hc⟩
    · rw [hbj] at hh
      exact absurd hh (by decide)
    · rw [hbj] at hc
      exact absurd hc (by decide)
  unfold findTocEnd
  rw [endScanAux_eq_none (by omega) hnt]
  rw [backScanAux_eq_none_iff.mpr (fun m h1 h2 => hb m h1 (by omega))]

theorem findTocEnd_ne_none_of_nonblank {lines : List (List Char)} {i : Nat}
    (hj : ∃ j, i < j ∧ j < lines.length ∧ pyStrip (lines.getD j []) ≠ []) :
    findTocEnd lines i ≠ none := by
  rcases hj with ⟨j, hij, hjn, hnb⟩
  unfold findTocEnd
  cases hscan : endScanAux lines i (lines.length - (i + 1)) (i + 1) with
  | some e => simp
  | none =>
    simp only
    intro hnone
    have := backScanAux_eq_none_iff.mp hnone j hij (by omega)
    exact hnb this

theorem skipBlanksAux_le (lines : List (List Char)) (fuel p : Nat) :
    skipBlanksAux lines fuel p ≤ p + fuel := by
  induction fuel generalizing p with
  | zero => simp [skipBlanksAux]
  | succ fuel ih =>
    rw [skipBlanksAux]
    split
    · exact le_trans (ih (p + 1)) (by omega)
    · omega

theorem insertPos_cons (l : List Char) (ls : List (List Char)) :
    insertPos (l :: ls) =
      if ['#', ' '].isPrefixOf l then
        skipBlanksAux (l :: ls) ((l :: ls).length - 1) 1
      else 0 := rfl

theorem insertPos_le (lines : List (List Char)) :
    insertPos lines ≤ lines.length := by
  cases lines with
  | nil => simp [insertPos]
  | cons l ls =>
    rw [insertPos_cons]
    have hb := skipBlanksAux_le (l :: ls) ((l :: ls).length - 1) 1
    simp only [List.length_cons] at hb ⊢
    split
    · omega
    · omega

/-! ## Characterization of heading extraction -/

theorem extractAux_cons (d ln : Nat) (l : List Char) (ls : List (List Char)) :
    extractAux d ln (l :: ls) =
      match matchHeading (pyStrip l) with
      | some (lv, tx) =>
        if lv ≤ d then
          ⟨lv, tx, anchorChars tx, ln⟩ :: extractAux d (ln + 1) ls
        else extractAux d (ln + 1) ls
      | none => extractAux d (ln + 1) ls := rfl

theorem extractAux_cons_some {d ln lv : Nat} {tx l : List Char}
    {ls : List (List Char)} (h : matchHeading (pyStrip l) = some (lv, tx)) :
    extractAux d ln (l :: ls) =
      if lv ≤ d then
        ⟨lv, tx, anchorChars tx, ln⟩ :: extractAux d (ln + 1) ls
      else extractAux d (ln + 1) ls := by
  rw [extractAux_cons, h]

theorem extractAux_cons_none {d ln : Nat} {l : List Char}
    {ls : List (List Char)} (h : matchHeading (pyStrip l) = none) :
    extractAux d ln (l :: ls) = extractAux d (ln + 1) ls := by
  rw [extractAux_cons, h]

theorem mem_extractAux {d ln : Nat} {ls : List (List Char)} {h : Heading}
    (hm : h ∈ extractAux d ln ls) :
    ln ≤ h.line ∧ h.line < ln + ls.length ∧ h.level ≤ d ∧
      matchHeading (pyStrip (ls.getD (h.line - ln) [])) = some (h.level, h.text) ∧
      h.anchor = anchorChars h.text := by
  induction ls generalizing ln with
  | nil => simp [extractAux] at hm
  | cons l ls ih =>
    have step : h ∈ extractAux d (ln + 1) ls →
        ln ≤ h.line ∧ h.line < ln + (l :: ls).length ∧ h.level ≤ d ∧
          matchHeading (pyStrip ((l :: ls).getD (h.line - ln) [])) =
            some (h.level, h.text) ∧ h.anchor = anchorChars h.text := by
      intro hm'
      obtain ⟨hb1, hb2, hb3, hb4, hb5⟩ := ih hm'
      refine ⟨by omega, by simp only [List.length_cons]; omega, hb3, ?_, hb5⟩
      have hidx : h.line - ln = (h.line - (ln + 1)) + 1 := by omega
      rw [hidx, List.getD_cons_succ]
      exact hb4
    cases hmh : matchHeading (pyStrip l) with
    | none =>
      rw [extractAux_cons_none hmh] at hm
      exact step hm
    | some p =>
      obtain ⟨lv, tx⟩ := p
      rw [extractAux_cons_some hmh] at hm
      by_cases hlv : lv ≤ d
      · rw [if_pos hlv] at hm
        rcases List.mem_cons.mp hm with rfl | hm
        · exact ⟨le_refl _, by simp, hlv, by simpa using hmh, rfl⟩
        · exact step hm
      · rw [if_neg hlv] at hm
        exact step hm

theorem extractAux_chain (d ln : Nat) (ls : List (List Char)) :
    (extractAux d ln ls).Chain' (fun a b => a.line < b.line) := by
  induction ls generalizing ln with
  | nil => simp [extractAux]
  | cons l ls ih =>
    cases hmh : matchHeading (pyStrip l) with
    | none =>
      rw [extractAux_cons_none hmh]
      exact ih (ln + 1)
    | some p =>
      obtain ⟨lv, tx⟩ := p
      rw [extractAux_cons_some hmh]
      by_cases hlv : lv ≤ d
      · rw [if_pos hlv]
        rw [List.chain'_cons']
        refine ⟨?_, ih (ln + 1)⟩
        intro y hy
        have hym : y ∈ extractAux d (ln + 1) ls := List.mem_of_mem_head? hy
        have := (mem_extractAux hym).1
        simp only
        omega
      · rw [if_neg hlv]
        exact ih (ln + 1)

theorem extractAux_complete {d ln idx lv : Nat} {ls : List (List Char)}
    {tx : List Char} (hidx : idx < ls.length)
    (hm : matchHeading (pyStrip (ls.getD idx [])) = some (lv, tx))
    (hlv : lv ≤ d) :
    ∃ h ∈ extractAux d ln ls,
      h.line = ln + idx ∧ h.level = lv ∧ h.text = tx ∧
        h.anchor = anchorChars tx := by
  induction ls generalizing ln idx with
  | nil => simp at hidx
  | cons l ls ih =>
    cases idx with
    | zero =>
      simp only [List.getD_cons_zero] at hm
      rw [extractAux_cons_some hm, if_pos hlv]
      exact ⟨⟨lv, tx, anchorChars tx, ln⟩, List.mem_cons_self _ _, by simp⟩
    | succ idx =>
      simp only [List.getD_cons_succ] at hm
      obtain ⟨h, hmem, hline, hrest⟩ :=
        @ih (ln + 1) idx (by simpa using Nat.lt_of_succ_lt_succ hidx) hm
      have hmem' : h ∈ extractAux d ln (l :: ls) := by
        cases hmh : matchHeading (pyStrip l) with
        | none =>
          rw [extractAux_cons_none hmh]
          exact hmem
        | some p =>
          obtain ⟨lv', tx'⟩ := p
          rw [extractAux_cons_some hmh]
          by_cases hlv' : lv' ≤ d
          · rw [if_pos hlv']
            exact List.mem_cons_of_mem _ hmem
          · rw [if_neg hlv']
            exact hmem
      exact ⟨h, hmem', by omega, hrest⟩

/-! ## Structural facts about stripping -/

theorem head?_dropWhile_false {α : Type _} {p : α → Bool} {l : List α} {c : α}
    (h : (l.dropWhile p).head? = some c) : p c = false := by
  have hh := List.head?_dropWhile_not p l
  rw [h] at hh
  exact hh

theorem dropWhile_eq_self_of_head {α : Type _} {p : α → Bool} {s : List α}
    (h : ∀ c, s.head? = some c → p c = false) : s.dropWhile p = s := by
  cases s with
  | nil => rfl
  | cons c cs => exact List.dropWhile_cons_of_neg (by simp [h c rfl])

theorem pyStrip_head?_false {s : List Char} {c : Char}
    (h : (pyStrip s).head? = some c) : pyIsSpace c = false := by
  unfold pyStrip at h
  have hsuf : List.dropWhile pyIsSpace (s.dropWhile pyIsSpace).reverse <:+
      (s.dropWhile pyIsSpace).reverse := List.dropWhile_suffix _
  have hpre : (List.dropWhile pyIsSpace (s.dropWhile pyIsSpace).reverse).reverse <+:
      s.dropWhile pyIsSpace := by
    have h2 := List.reverse_prefix.mpr hsuf
    simpa using h2
  obtain ⟨t, ht⟩ := hpre
  have hhu : (s.dropWhile pyIsSpace).head? = some c := by
    rw [← ht]
    cases hX : (List.dropWhile pyIsSpace (s.dropWhile pyIsSpace).reverse).reverse with
    | nil => rw [hX] at h; simp at h
    | cons a b =>
      rw [hX] at h
      simp only [List.head?_cons, Option.some_inj] at h
      subst h
      simp
  exact head?_dropWhile_false hhu

theorem pyStrip_getLast?_false {s : List Char} {c : Char}
    (h : (pyStrip s).getLast? = some c) : pyIsSpace c = false := by
  unfold pyStrip at h
  rw [List.getLast?_reverse] at h
  exact head?_dropWhile_false h

theorem pyStrip_eq_self {s : List Char}
    (h1 : ∀ c, s.head? = some c → pyIsSpace c = false)
    (h2 : ∀ c, s.getLast? = some c → pyIsSpace c = false) :
    pyStrip s = s := by
  unfold pyStrip
  rw [dropWhile_eq_self_of_head h1]
  rw [dropWhile_eq_self_of_head
    (fun c hc => h2 c (by rwa [List.head?_reverse] at hc))]
  exact List.reverse_reverse s

theorem pyStrip_idem (s : List Char) : pyStrip (pyStrip s) = pyStrip s :=
  pyStrip_eq_self (fun _ hc => pyStrip_head?_false hc)
    (fun _ hc => pyStrip_getLast?_false hc)

theorem pyStrip_spaces_cons {pre rest : List Char} {c : Char}
    (hpre : ∀ a ∈ pre, pyIsSpace a = true) (hc : pyIsSpace c = false) :
    ∃ r, pyStrip (pre ++ c :: rest) = c :: r := by
  unfold pyStrip
  rw [List.dropWhile_append_of_pos hpre, List.dropWhile_cons_of_neg (by simp [hc])]
  rw [List.reverse_cons, List.dropWhile_append]
  split
  · refine ⟨[], ?_⟩
    rw [List.dropWhile_cons_of_neg (by simp [hc])]
    simp
  · exact ⟨(List.dropWhile pyIsSpace rest.reverse).reverse,
      by rw [List.reverse_append]; simp⟩

theorem getLast?_of_suffix {l t : List Char} (h : t <:+ l) (hne : t ≠ []) :
    t.getLast? = l.getLast? := by
  obtain ⟨w, rfl⟩ := h
  rw [List.getLast?_append]
  cases ht : t.getLast? with
  | none => exact absurd (List.getLast?_eq_none_iff.mp ht) hne
  | some x => simp

theorem pyStrip_eq_self_of_suffix {l t : List Char} (hl : pyStrip l = l)
    (hsuf : t <:+ l) (hhead : ∀ c, t.head? = some c → pyIsSpace c = false) :
    pyStrip t = t := by
  refine pyStrip_eq_self hhead (fun c hc => ?_)
  have hne : t ≠ [] := by
    intro h
    rw [h] at hc
    simp at hc
  rw [getLast?_of_suffix hsuf hne] at hc
  have hc' : (pyStrip l).getLast? = some c := by rw [hl]; exact hc
  exact pyStrip_getLast?_false hc'

theorem matchHeading_eq_some_iff {l tx : List Char} {lv : Nat}
    (hl : pyStrip l = l) :
    matchHeading l = some (lv, tx) ↔
      1 ≤ lv ∧ lv ≤ 6 ∧
      ∃ ws c0 cs, tx = c0 :: cs ∧ ws ≠ [] ∧ (∀ c ∈ ws, pyIsSpace c = true) ∧
        pyIsSpace c0 = false ∧ l = List.replicate lv '#' ++ ws ++ tx := by
  constructor
  · intro hsome
    simp only [matchHeading] at hsome
    split at hsome
    · rename_i h16
      split at hsome
      · exact absurd hsome (by simp)
      · rename_i r rest' heq
        split at hsome
        · rename_i hr
          split at hsome
          · exact absurd hsome (by simp)
          · rename_i ht
            rw [Option.some_inj, Prod.mk.injEq] at hsome
            obtain ⟨hn, htx⟩ := hsome
            have htake : l.takeWhile (· == '#') = List.replicate lv '#' := by
              rw [List.eq_replicate_iff]
              exact ⟨hn, fun b hb => by simpa using List.mem_takeWhile_imp hb⟩
            have hrest_suf : (r :: rest') <:+ l := by
              refine ⟨l.takeWhile (· == '#'), ?_⟩
              rw [← heq]
              exact List.takeWhile_append_dropWhile _ _
            have ht0_suf : (r :: rest').dropWhile pyIsSpace <:+ l :=
              (List.dropWhile_suffix pyIsSpace).trans hrest_suf
            have ht0ne : (r :: rest').dropWhile pyIsSpace ≠ [] := by
              intro h0
              rw [heq, h0] at ht
              exact ht rfl
            obtain ⟨c0, cs, hc0cs⟩ :
                ∃ c0 cs, (r :: rest').dropWhile pyIsSpace = c0 :: cs := by
              cases hX : (r :: rest').dropWhile pyIsSpace with
              | nil => exact absurd hX ht0ne
              | cons a b => exact ⟨a, b, rfl⟩
            have hc0 : pyIsSpace c0 = false :=
              head?_dropWhile_false (by rw [hc0cs]; rfl)
            have hstript0 : pyStrip ((r :: rest').dropWhile pyIsSpace) =
                (r :: rest').dropWhile pyIsSpace := by
              refine pyStrip_eq_self_of_suffix hl ht0_suf ?_
              intro c hc
              rw [hc0cs] at hc
              simp only [List.head?_cons, Option.some_inj] at hc
              subst hc
              exact hc0
            rw [heq] at htx
            rw [hstript0] at htx
            refine ⟨by omega, by omega, (r :: rest').takeWhile pyIsSpace, c0, cs,
              ?_, ?_, ?_, hc0, ?_⟩
            · rw [← htx, hc0cs]
            · rw [List.takeWhile_cons_of_pos hr]
              simp
            · exact fun c hc => List.mem_takeWhile_imp hc
            · rw [← htake, ← htx, List.append_assoc,
                List.takeWhile_append_dropWhile, ← heq,
                List.takeWhile_append_dropWhile]
        · exact absurd hsome (by simp)
    · exact absurd hsome (by simp)
  · rintro ⟨h1, h6, ws, c0, cs, rfl, hwsne, hws, hc0, rfl⟩
    obtain ⟨w0, ws', rfl⟩ : ∃ w0 ws', ws = w0 :: ws' := by
      cases ws with
      | nil => exact absurd rfl hwsne
      | cons a b => exact ⟨a, b, rfl⟩
    have hw0s : pyIsSpace w0 = true := hws w0 (List.mem_cons_self _ _)
    have hw0hash : (w0 == '#') = false := by
      have hne : w0 ≠ '#' := by
        intro h
        rw [h] at hw0s
        exact absurd hw0s (by decide)
      simp [hne]
    have hrep : ∀ a ∈ List.replicate lv '#', (a == '#') = true := by
      intro a ha
      simp [List.eq_of_mem_replicate ha]
    have htake : (List.replicate lv '#' ++ (w0 :: ws') ++ (c0 :: cs)).takeWhile
        (· == '#') = List.replicate lv '#' := by
      rw [List.append_assoc, List.takeWhile_append_of_pos hrep,
        List.cons_append, List.takeWhile_cons_of_neg (by simp [hw0hash])]
      simp
    have hdrop : (List.replicate lv '#' ++ (w0 :: ws') ++ (c0 :: cs)).dropWhile
        (· == '#') = (w0 :: ws') ++ (c0 :: cs) := by
      rw [List.append_assoc, List.dropWhile_append_of_pos hrep, List.cons_append,
        List.dropWhile_cons_of_neg (by simp [hw0hash])]
    have ht0 : ((w0 :: ws') ++ (c0 :: cs)).dropWhile pyIsSpace = c0 :: cs := by
      rw [List.dropWhile_append_of_pos hws,
        List.dropWhile_cons_of_neg (by simp [hc0])]
    have hsuf : (c0 :: cs) <:+
        List.replicate lv '#' ++ (w0 :: ws') ++ (c0 :: cs) := by
      exact ⟨List.replicate lv '#' ++ (w0 :: ws'), by simp⟩
    have hstrip : pyStrip (c0 :: cs) = c0 :: cs := by
      refine pyStrip_eq_self_of_suffix hl hsuf ?_
      intro c hc
      simp only [List.head?_cons, Option.some_inj] at hc
      subst hc
      exact hc0
    simp only [matchHeading, htake, hdrop, List.length_replicate]
    rw [if_pos ⟨h1, h6⟩]
    show (if pyIsSpace w0 = true then
        if pyStrip (((w0 :: ws') ++ (c0 :: cs)).dropWhile pyIsSpace) = [] then none
        else some (lv, pyStrip (((w0 :: ws') ++ (c0 :: cs)).dropWhile pyIsSpace))
      else none) = some (lv, c0 :: cs)
    rw [ht0, hstrip, if_pos hw0s, if_neg (by simp)]

/-! ## Claim C2: heading extraction -/

/-- **C2** (confirmed).  For every document `D` and depth `d`,
`extract_headings D d` has strictly increasing 1-based line numbers
(document order, at most one entry per line); every entry has level ≤ d,
its level/text are exactly what the heading pattern yields on the
stripped source line, and its anchor is the slug of its text; every line
whose stripped text matches the pattern with level ≤ d contributes an
entry; and on a stripped line the pattern holds exactly for a
decomposition "1-6 `#`, at least one whitespace character, non-empty
text starting with a non-whitespace character" (so lines with `#` not
followed by whitespace, more than 6 `#`, or no trailing text yield no
entry). -/
theorem extract_headings_spec (D : String) (d : Nat) :
    ((extract_headings D d).Chain' fun a b => a.line < b.line) ∧
    (∀ h ∈ extract_headings D d,
      1 ≤ h.line ∧ h.line ≤ (splitLines D.data).length ∧ h.level ≤ d ∧
      matchHeading (pyStrip ((splitLines D.data).getD (h.line - 1) [])) =
        some (h.level, h.text) ∧ h.anchor = anchorChars h.text) ∧
    (∀ i lv tx, i < (splitLines D.data).length →
      matchHeading (pyStrip ((splitLines D.data).getD i [])) = some (lv, tx) →
      lv ≤ d →
      ∃ h ∈ extract_headings D d,
        h.line = i + 1 ∧ h.level = lv ∧ h.text = tx ∧
          h.anchor = anchorChars tx) ∧
    (∀ (l tx : List Char) (lv : Nat), pyStrip l = l →
      (matchHeading l = some (lv, tx) ↔
        1 ≤ lv ∧ lv ≤ 6 ∧
        ∃ ws c0 cs, tx = c0 :: cs ∧ ws ≠ [] ∧
          (∀ c ∈ ws, pyIsSpace c = true) ∧
          pyIsSpace c0 = false ∧
          l = List.replicate lv '#' ++ ws ++ tx)) := by
  refine ⟨extractAux_chain d 1 _, ?_, ?_,
    fun l tx lv hl => matchHeading_eq_some_iff hl⟩
  · intro h hm
    obtain ⟨h1, h2, h3, h4, h5⟩ := @mem_extractAux d 1 (splitLines D.data) h hm
    exact ⟨h1, by omega, h3, h4, h5⟩
  · intro i lv tx hi hm hlv
    obtain ⟨h, hmem, hline, hrest⟩ := @extractAux_complete d 1 i lv _ tx hi hm hlv
    exact ⟨h, hmem, by omega, hrest⟩

/-- Witness for C2: instantiating the characterization on a concrete
document produces the expected entry for the `## B` line. -/
theorem extract_headings_spec_witness :
    ∃ h ∈ extract_headings "# A\nx\n## B" 2,
      h.line = 3 ∧ h.level = 2 ∧ h.text = ['B'] ∧
        h.anchor = anchorChars ['B'] :=
  (extract_headings_spec "# A\nx\n## B" 2).2.2.1 2 2 ['B']
    (by decide) (by decide) (by decide)

/-! ## The anchor slug: characters, collapsing, idempotence -/

theorem toNat_ofNat_lt {n : Nat} (h : n < 0xd800) : (Char.ofNat n).toNat = n := by
  rw [Char.ofNat, dif_pos (Or.inl h)]
  show (UInt32.ofNat' n _).toNat = n
  simp [UInt32.ofNat', UInt32.toNat]

theorem pyToLower_idem (c : Char) : pyToLower (pyToLower c) = pyToLower c := by
  unfold pyToLower
  by_cases h : 65 ≤ c.toNat ∧ c.toNat ≤ 90
  · rw [if_pos h]
    have hv : (Char.ofNat (c.toNat + 32)).toNat = c.toNat + 32 :=
      toNat_ofNat_lt (by omega)
    rw [if_neg (by rw [hv]; omega)]
  · rw [if_neg h, if_neg h]

theorem collapseAux_cons (b : Bool) (c : Char) (cs : List Char) :
    collapseAux b (c :: cs) =
      if isSep c then
        if b then collapseAux true cs else '-' :: collapseAux true cs
      else c :: collapseAux false cs := rfl

theorem mem_collapseAux {b : Bool} {s : List Char} {c : Char}
    (h : c ∈ collapseAux b s) : c = '-' ∨ (c ∈ s ∧ isSep c = false) := by
  induction s generalizing b with
  | nil => simp [collapseAux] at h
  | cons a t ih =>
    rw [collapseAux_cons] at h
    by_cases ha : isSep a
    · rw [if_pos ha] at h
      cases b with
      | true =>
        rcases ih h with h' | h'
        · exact Or.inl h'
        · exact Or.inr ⟨List.mem_cons_of_mem _ h'.1, h'.2⟩
      | false =>
        rcases List.mem_cons.mp h with rfl | h'
        · exact Or.inl rfl
        · rcases ih h' with h'' | h''
          · exact Or.inl h''
          · exact Or.inr ⟨List.mem_cons_of_mem _ h''.1, h''.2⟩
    · rw [if_neg ha] at h
      rcases List.mem_cons.mp h with rfl | h'
      · exact Or.inr ⟨List.mem_cons_self _ _, Bool.eq_false_iff.mpr ha⟩
      · rcases ih h' with h'' | h''
        · exact Or.inl h''
        · exact Or.inr ⟨List.mem_cons_of_mem _ h''.1, h''.2⟩

theorem head?_collapseAux_true {s : List Char} {c : Char}
    (h : (collapseAux true s).head? = some c) : isSep c = false := by
  induction s with
  | nil => simp [collapseAux] at h
  | cons a t ih =>
    rw [collapseAux_cons] at h
    by_cases ha : isSep a
    · rw [if_pos ha] at h
      exact ih (by simpa using h)
    · rw [if_neg ha] at h
      simp only [List.head?_cons, Option.some_inj] at h
      subst h
      exact Bool.eq_false_iff.mpr ha

theorem chain_collapseAux (b : Bool) (s : List Char) :
    (collapseAux b s).Chain' (fun a c => isSep a = true → isSep c = false) := by
  induction s generalizing b with
  | nil => simp [collapseAux]
  | cons a t ih =>
    rw [collapseAux_cons]
    by_cases ha : isSep a
    · rw [if_pos ha]
      cases b with
      | true => exact ih true
      | false =>
        rw [if_neg (by simp)]
        rw [List.chain'_cons']
        exact ⟨fun y hy _ => head?_collapseAux_true hy, ih true⟩
    · rw [if_neg ha]
      rw [List.chain'_cons']
      refine ⟨fun y hy hsa => ?_, ih false⟩
      exact absurd hsa (by simp [Bool.eq_false_iff.mpr ha])

theorem collapseAux_eq_self {s : List Char}
    (hall : ∀ c ∈ s, isSep c = false ∨ c = '-')
    (hch : s.Chain' (fun a c => isSep a = true → isSep c = false)) :
    ∀ b, (∀ c, s.head? = some c → b = true → isSep c = false) →
      collapseAux b s = s := by
  induction s with
  | nil => intro b _; rfl
  | cons a t ih =>
    intro b hb
    rw [collapseAux_cons]
    rw [List.chain'_cons'] at hch
    by_cases ha : isSep a
    · have hb' : b = false := by
        cases b with
        | false => rfl
        | true => exact absurd (hb a rfl rfl) (by simp [ha])
      subst hb'
      rw [if_pos ha]
      have hd : a = '-' := by
        rcases hall a (List.mem_cons_self _ _) with h' | h'
        · exact absurd ha (by simp [h'])
        · exact h'
      rw [ih (fun c hc => hall c (List.mem_cons_of_mem _ hc)) hch.2 true
        (fun c hc _ => hch.1 c hc ha)]
      rw [hd, if_neg (by simp)]
    · rw [if_neg ha]
      rw [ih (fun c hc => hall c (List.mem_cons_of_mem _ hc)) hch.2 false
        (by intro c _ h; exact absurd h (by simp))]

theorem strip_ends_head?_false {p : Char → Bool} {s : List Char} {c : Char}
    (h : (((s.dropWhile p).reverse.dropWhile p).reverse).head? = some c) :
    p c = false := by
  have hsuf : List.dropWhile p (s.dropWhile p).reverse <:+
      (s.dropWhile p).reverse := List.dropWhile_suffix _
  have hpre : (List.dropWhile p (s.dropWhile p).reverse).reverse <+:
      s.dropWhile p := by
    have h2 := List.reverse_prefix.mpr hsuf
    simpa using h2
  obtain ⟨t, ht⟩ := hpre
  have hhu : (s.dropWhile p).head? = some c := by
    rw [← ht]
    cases hX : (List.dropWhile p (s.dropWhile p).reverse).reverse with
    | nil => rw [hX] at h; simp at h
    | cons a b =>
      rw [hX] at h
      simp only [List.head?_cons, Option.some_inj] at h
      subst h
      simp
  exact head?_dropWhile_false hhu

theorem strip_ends_getLast?_false {p : Char → Bool} {s : List Char} {c : Char}
    (h : (((s.dropWhile p).reverse.dropWhile p).reverse).getLast? = some c) :
    p c = false := by
  rw [List.getLast?_reverse] at h
  exact head?_dropWhile_false h

theorem strip_ends_eq_self {p : Char → Bool} {s : List Char}
    (h1 : ∀ c, s.head? = some c → p c = false)
    (h2 : ∀ c, s.getLast? = some c → p c = false) :
    ((s.dropWhile p).reverse.dropWhile p).reverse = s := by
  rw [dropWhile_eq_self_of_head h1]
  rw [dropWhile_eq_self_of_head
    (fun c hc => h2 c (by rwa [List.head?_reverse] at hc))]
  exact List.reverse_reverse s

theorem strip_ends_mid (p : Char → Bool) (s : List Char) :
    ((s.dropWhile p).reverse.dropWhile p).reverse <:+: s := by
  have hsuf : List.dropWhile p (s.dropWhile p).reverse <:+
      (s.dropWhile p).reverse := List.dropWhile_suffix _
  have hpre : (List.dropWhile p (s.dropWhile p).reverse).reverse <+:
      s.dropWhile p := by
    have h2 := List.reverse_prefix.mpr hsuf
    simpa using h2
  exact hpre.isInfix.trans (List.dropWhile_suffix p).isInfix

theorem anchorChars_props {t : List Char} {c : Char} (h : c ∈ anchorChars t) :
    isFmtChar c = false ∧ pyToLower c = c ∧ anchorKeep c = true ∧
      (isSep c = false ∨ c = '-') := by
  have hmemColl : c ∈ collapseAux false
      (((t.filter (fun c => !isFmtChar c)).map pyToLower).filter anchorKeep) := by
    have hinf := strip_ends_mid (· == '-')
      (collapseAux false
        (((t.filter (fun c => !isFmtChar c)).map pyToLower).filter anchorKeep))
    exact hinf.subset h
  rcases mem_collapseAux hmemColl with rfl | ⟨hcu, hsep⟩
  · exact ⟨by decide, by decide, by decide, Or.inr rfl⟩
  · have hkeep : anchorKeep c = true := (List.mem_filter.mp hcu).2
    have hmap : c ∈ (t.filter (fun c => !isFmtChar c)).map pyToLower :=
      (List.mem_filter.mp hcu).1
    obtain ⟨c0, _, rfl⟩ := List.mem_map.mp hmap
    refine ⟨?_, pyToLower_idem c0, hkeep, Or.inl hsep⟩
    have hsp : pyIsSpace (pyToLower c0) = false ∧ pyToLower c0 ≠ '_' ∧
        pyToLower c0 ≠ '-' := by
      have := hsep
      simp [isSep] at this
      exact ⟨this.1.1, this.1.2, this.2⟩
    have hword : isWordChar (pyToLower c0) = true := by
      have := hkeep
      simp [anchorKeep, hsp.1, hsp.2.2] at this
      exact this
    simp only [isFmtChar, Bool.or_eq_false_iff]
    refine ⟨⟨?_, ?_⟩, ?_⟩
    · simp only [beq_eq_false_iff_ne, ne_eq]
      intro h'
      rw [h'] at hword
      exact absurd hword (by decide)
    · simp only [beq_eq_false_iff_ne, ne_eq]
      exact hsp.2.1
    · simp only [beq_eq_false_iff_ne, ne_eq]
      intro h'
      rw [h'] at hword
      exact absurd hword (by decide)

theorem anchorChars_idem (t : List Char) :
    anchorChars (anchorChars t) = anchorChars t := by
  have hprops := fun c hc => anchorChars_props (t := t) (c := c) hc
  have h1 : (anchorChars t).filter (fun c => !isFmtChar c) = anchorChars t :=
    List.filter_eq_self.mpr (fun c hc => by simp [(hprops c hc).1])
  have h2 : (anchorChars t).map pyToLower = anchorChars t := by
    have hcg : (anchorChars t).map pyToLower = (anchorChars t).map id :=
      List.map_congr_left (fun c hc => (hprops c hc).2.1)
    simpa using hcg
  have h3 : (anchorChars t).filter anchorKeep = anchorChars t :=
    List.filter_eq_self.mpr (fun c hc => (hprops c hc).2.2.1)
  have hinf : anchorChars t <:+: collapseAux false
      (((t.filter (fun c => !isFmtChar c)).map pyToLower).filter anchorKeep) :=
    strip_ends_mid (· == '-') _
  have hchain : (anchorChars t).Chain'
      (fun a c => isSep a = true → isSep c = false) :=
    List.Chain'.infix (chain_collapseAux false _) hinf
  have h4 : collapseAux false (anchorChars t) = anchorChars t := by
    refine collapseAux_eq_self (fun c hc => (hprops c hc).2.2.2) hchain false ?_
    intro c _ hb
    exact absurd hb (by simp)
  have h5 : stripHyphens (anchorChars t) = anchorChars t := by
    unfold stripHyphens
    refine strip_ends_eq_self ?_ ?_
    · intro c hc
      unfold anchorChars stripHyphens at hc
      exact strip_ends_head?_false (p := fun x => x == '-') hc
    · intro c hc
      unfold anchorChars stripHyphens at hc
      exact strip_ends_getLast?_false (p := fun x => x == '-') hc
  calc anchorChars (anchorChars t)
      = stripHyphens (collapseAux false ((((anchorChars t).filter
          (fun c => !isFmtChar c)).map pyToLower).filter anchorKeep)) := rfl
    _ = stripHyphens (collapseAux false (anchorChars t)) := by
        rw [h1, h2, h3]
    _ = stripHyphens (anchorChars t) := by rw [h4]
    _ = anchorChars t := h5

/-! ## Claim C9: slug determinism and self-idempotence -/

/-- **C9** (confirmed).  `generate_anchor` is a deterministic pure
function (equal inputs give equal outputs) and every output is a fixed
point of re-slugging: `generate_anchor (generate_anchor x) =
generate_anchor x` for every string `x`. -/
theorem generate_anchor_idem :
    (∀ x y : String, x = y → generate_anchor x = generate_anchor y) ∧
    ∀ x : String, generate_anchor (generate_anchor x) = generate_anchor x := by
  refine ⟨fun x y h => by rw [h], fun x => ?_⟩
  show String.mk (anchorChars (String.mk (anchorChars x.data)).data) = _
  rw [show (String.mk (anchorChars x.data)).data = anchorChars x.data from rfl,
    anchorChars_idem]
  rfl

/-- Witness for C9 at the concrete heading text of the spec example. -/
theorem generate_anchor_idem_witness :
    generate_anchor "Setup *Guide*!" = generate_anchor "Setup *Guide*!" ∧
    generate_anchor (generate_anchor "Setup *Guide*!") =
      generate_anchor "Setup *Guide*!" :=
  ⟨generate_anchor_idem.1 _ _ rfl, generate_anchor_idem.2 _⟩

/-! ## Claim C5: the anchor algorithm -/

theorem collapseAux_true_eq (s : List Char) :
    collapseAux true s = collapseAux false (s.dropWhile (fun d => isSep d)) := by
  induction s with
  | nil => rfl
  | cons c cs ih =>
    by_cases h : isSep c
    · rw [collapseAux_cons, if_pos h, if_pos rfl, List.dropWhile_cons_of_pos h, ih]
    · rw [collapseAux_cons, if_neg h, List.dropWhile_cons_of_neg h,
        collapseAux_cons, if_neg h]

theorem collapseSpec_eq_collapseAux (s : List Char) :
    collapseSpec s = collapseAux false s := by
  have H : ∀ n (s : List Char), s.length ≤ n →
      collapseSpec s = collapseAux false s := by
    intro n
    induction n with
    | zero =>
      intro s hs
      cases s with
      | nil => simp only [collapseSpec]; rfl
      | cons c cs => simp at hs
    | succ n ih =>
      intro s hs
      cases s with
      | nil => simp only [collapseSpec]; rfl
      | cons c cs =>
        by_cases h : isSep c
        · simp only [collapseSpec]
          rw [if_pos h, collapseAux_cons, if_pos h, if_neg (by simp)]
          rw [ih (cs.dropWhile (fun d => isSep d))
            (le_trans (List.dropWhile_sublist _).length_le
              (by simp only [List.length_cons] at hs; omega))]
          rw [collapseAux_true_eq]
        · simp only [collapseSpec]
          rw [if_neg h, collapseAux_cons, if_neg h]
          rw [ih cs (by simp only [List.length_cons] at hs; omega)]
  exact H s.length s le_rfl

/-- **C5** (confirmed).  `generate_anchor` performs exactly the five
steps in order — remove `*`/`_`/backtick, lowercase, remove everything
but word characters/whitespace/hyphens, replace every maximal run of
whitespace/underscore/hyphen by a single hyphen (the `collapseSpec`
formulation), trim hyphens at both ends — and on the spec's example
`"Setup *Guide*!"` it yields `"setup-guide"`. -/
theorem generate_anchor_steps :
    (∀ text : String,
      generate_anchor text = String.mk (anchorCharsSpec text.data)) ∧
    generate_anchor "Setup *Guide*!" = "setup-guide" := by
  constructor
  · intro text
    show String.mk (anchorChars text.data) = _
    unfold anchorChars anchorCharsSpec
    rw [collapseSpec_eq_collapseAux]
  · decide

/-! ## Claims C8 and C6: the no-headings path and the empty TOC -/

/-- **C8** (confirmed).  When `extract_headings` finds nothing, the
driver performs no splice and no write-back, leaves the document text
unchanged and terminates as the success "No headings found". -/
theorem process_note_no_headings (D : String) (d : Nat) (dryRun : Bool)
    (h : extract_headings D d = []) :
    process_note_core D d dryRun = ⟨true, "No headings found", D, false⟩ := by
  unfold process_note_core
  rw [if_pos h]

/-- Witness for C8 on a concrete document with no heading lines. -/
theorem process_note_no_headings_witness :
    process_note_core "just text\nno headings" 3 false =
      ⟨true, "No headings found", "just text\nno headings", false⟩ :=
  process_note_no_headings _ 3 false (by decide)

/-- **C6 counterexample.**  Splicing an empty TOC text is not a no-op:
on the document `"a"` it prepends two blank lines. -/
theorem insert_empty_toc_not_noop :
    insert_or_update_toc "a" "" ≠ "a" ∧
      insert_or_update_toc "a" "" = "\n\na" := by
  constructor
  · decide
  · decide

/-- **C6 amended** (the nearby true statement).  Rendering an empty
heading sequence yields the empty string, and the document is unchanged
at the pipeline level because `process_note` skips the splicer entirely
when there are no headings; `insert_or_update_toc` itself applied to an
empty TOC text is *not* a no-op. -/
theorem generate_toc_empty_and_pipeline_noop :
    generate_toc [] = "" ∧
    ∀ (D : String) (d : Nat) (dryRun : Bool), extract_headings D d = [] →
      (process_note_core D d dryRun).finalContent = D := by
  refine ⟨rfl, fun D d dry h => ?_⟩
  unfold process_note_core
  rw [if_pos h]

/-- Witness for the amended C6 on a concrete document. -/
theorem generate_toc_empty_and_pipeline_noop_witness :
    (process_note_core "plain" 3 false).finalContent = "plain" :=
  generate_toc_empty_and_pipeline_noop.2 "plain" 3 false (by decide)

/-! ## Claim C1: pipeline idempotence fails -/

/-- **C1 counterexample.**  Running extract → render → splice twice at
depth 2 on `"## A"` is not idempotent: the second run's TOC gains an
entry for the TOC header `## 目次` itself, so the document changes
again. -/
theorem pipeline_not_idempotent :
    runPipeline "## A" 2 = "\n## 目次\n\n  - [A](#a)\n\n## A" ∧
    runPipeline (runPipeline "## A" 2) 2 ≠ runPipeline "## A" 2 ∧
    runPipeline (runPipeline "## A" 2) 2 =
      "\n## 目次\n\n  - [目次](#目次)\n  - [A](#a)\n\n## A" := by
  refine ⟨by decide, by decide, by decide⟩

/-! ## TOC block lines: classification and newline-freedom -/

theorem isTocHeader_eq_true_iff {l : List Char} :
    isTocHeader l = true ↔
      l = "## 目次".data ∨ l = "## Table of Contents".data ∨
        l = "## TOC".data := by
  simp [isTocHeader]
  tauto

theorem isTocHeader_cons_ne {c : Char} {r : List Char} (hc : c ≠ '#') :
    isTocHeader (c :: r) = false := by
  rw [Bool.eq_false_iff]
  intro h
  rcases isTocHeader_eq_true_iff.mp h with h' | h' | h' <;>
  · have hh := congrArg List.head? h'
    rw [show (c :: r).head? = some c from rfl] at hh
    rw [show ∀ t, List.head? t = List.head? t from fun _ => rfl] at hh
    exact hc (by
      have : some c = some '#' := by rw [hh]; rfl
      simpa using this)

theorem pyStrip_tocEntryLine (h : Heading) :
    ∃ r, pyStrip (tocEntryLine h) = '-' :: r := by
  have hshape : tocEntryLine h = List.replicate ((h.level - 1) * 2) ' ' ++
      '-' :: ' ' :: '[' :: (h.text ++ ([']', '(', '#'] ++ (h.anchor ++ [')']))) := by
    simp [tocEntryLine, List.append_assoc]
  rw [hshape]
  exact pyStrip_spaces_cons
    (fun a ha => by rw [List.eq_of_mem_replicate ha]; rfl)
    (by decide)

theorem isTocHeader_tocEntryLine (h : Heading) :
    isTocHeader (pyStrip (tocEntryLine h)) = false := by
  obtain ⟨r, hr⟩ := pyStrip_tocEntryLine h
  rw [hr]
  exact isTocHeader_cons_ne (by decide)

theorem pyStrip_tocEntryLine_ne_nil (h : Heading) :
    pyStrip (tocEntryLine h) ≠ [] := by
  obtain ⟨r, hr⟩ := pyStrip_tocEntryLine h
  rw [hr]
  simp

theorem newline_not_mem_tocEntryLine {h : Heading} (ht : '\n' ∉ h.text)
    (ha : '\n' ∉ h.anchor) : '\n' ∉ tocEntryLine h := by
  intro hm
  simp [tocEntryLine, List.mem_replicate, ht, ha] at hm

theorem not_newline_mem_tocLines {hs : List Heading}
    (hf : ∀ h ∈ hs, '\n' ∉ h.text ∧ '\n' ∉ h.anchor) :
    ∀ l ∈ tocLines hs, '\n' ∉ l := by
  intro l hl
  unfold tocLines at hl
  rcases List.mem_cons.mp hl with rfl | hl
  · decide
  · rcases List.mem_cons.mp hl with rfl | hl
    · simp
    · rcases List.mem_append.mp hl with hl | hl
      · obtain ⟨h, hmem, rfl⟩ := List.mem_map.mp hl
        exact newline_not_mem_tocEntryLine (hf h hmem).1 (hf h hmem).2
      · rcases List.mem_singleton.mp hl with rfl
        simp

theorem countP_tocLines (hs : List Heading) :
    (tocLines hs).countP (fun l => isTocHeader (pyStrip l)) = 1 := by
  have hmap : (hs.map tocEntryLine).countP (fun l => isTocHeader (pyStrip l)) = 0 := by
    rw [List.countP_eq_zero]
    intro l hl
    obtain ⟨h, _, rfl⟩ := List.mem_map.mp hl
    simp [isTocHeader_tocEntryLine h]
  unfold tocLines
  simp only [List.countP_cons, List.countP_append, List.countP_nil, hmap,
    show isTocHeader (pyStrip "## 目次".data) = true from by decide,
    show isTocHeader (pyStrip ([] : List Char)) = false from by decide]
  norm_num

theorem splitLines_generate_toc {hs : List Heading} (hne : hs ≠ [])
    (hf : ∀ h ∈ hs, '\n' ∉ h.text ∧ '\n' ∉ h.anchor) :
    splitLines (generate_toc hs).data = tocLines hs := by
  unfold generate_toc
  rw [if_neg hne]
  exact splitLines_joinLines (by simp [tocLines]) (not_newline_mem_tocLines hf)

theorem pyToLower_eq_newline {c : Char} (h : pyToLower c = '\n') : c = '\n' := by
  unfold pyToLower at h
  split at h
  · rename_i hr
    have hv := congrArg Char.toNat h
    rw [toNat_ofNat_lt (by omega)] at hv
    rw [show Char.toNat '\n' = 10 from rfl] at hv
    omega
  · exact h

theorem newline_not_mem_anchorChars {tx : List Char} (h : '\n' ∉ tx) :
    '\n' ∉ anchorChars tx := by
  intro hm
  have hmm : '\n' ∈ collapseAux false
      (((tx.filter (fun c => !isFmtChar c)).map pyToLower).filter anchorKeep) :=
    (strip_ends_mid (· == '-') _).subset hm
  rcases mem_collapseAux hmm with he | ⟨hu, _⟩
  · exact absurd he (by decide)
  · have hmap : '\n' ∈ (tx.filter (fun c => !isFmtChar c)).map pyToLower :=
      (List.mem_filter.mp hu).1
    obtain ⟨c0, hc0, he⟩ := List.mem_map.mp hmap
    have hc0n : c0 = '\n' := pyToLower_eq_newline he
    subst hc0n
    exact h (List.mem_of_mem_filter hc0)

theorem extract_headings_no_newline {D : String} {d : Nat} {h : Heading}
    (hm : h ∈ extract_headings D d) : '\n' ∉ h.text ∧ '\n' ∉ h.anchor := by
  obtain ⟨_, hlt, _, hmatch, hanch⟩ := @mem_extractAux d 1 (splitLines D.data) h hm
  have htext : '\n' ∉ h.text := by
    have hstr : pyStrip (pyStrip ((splitLines D.data).getD (h.line - 1) [])) =
        pyStrip ((splitLines D.data).getD (h.line - 1) []) := pyStrip_idem _
    have hiff := (matchHeading_eq_some_iff hstr).mp hmatch
    obtain ⟨_, _, ws, c0, cs, htx, _, _, _, hdecomp⟩ := hiff
    intro hmem
    have hsub : '\n' ∈ pyStrip ((splitLines D.data).getD (h.line - 1) []) := by
      rw [hdecomp]
      simp [hmem]
    have hsub2 : '\n' ∈ (splitLines D.data).getD (h.line - 1) [] :=
      mem_of_mem_pyStrip hsub
    by_cases hlen : h.line - 1 < (splitLines D.data).length
    · have hmemline : (splitLines D.data).getD (h.line - 1) [] ∈ splitLines D.data := by
        rw [List.getD_eq_getElem _ _ hlen]
        exact List.getElem_mem _
      exact not_newline_mem_splitLines D.data _ hmemline hsub2
    · rw [List.getD_eq_default _ _ (by omega)] at hsub2
      simp at hsub2
  refine ⟨htext, ?_⟩
  rw [hanch]
  exact newline_not_mem_anchorChars htext

/-! ## Claim C4: TOC renderer format -/

/-- **C4 counterexample.**  On the spec example document at depth 3 the
rendered TOC is *not* the string the claim gives: level 1 ≤ 3, so the
`# Title` heading is extracted too and every entry is one indent level
deeper than the claim shows. -/
theorem generate_toc_example_mismatch :
    generate_toc (extract_headings "# Title\n\n## Intro\n## Details\n### Sub\n" 3) ≠
      "## 目次\n\n- [Intro](#intro)\n- [Details](#details)\n  - [Sub](#sub)\n" := by
  decide

/-- **C4 amended.**  For every non-empty heading sequence (with
newline-free text and anchors, as extraction produces), the rendered TOC
splits into: the literal header `## 目次`, a blank line, one line per
heading in input order of the form `- [text](#anchor)` indented by
`(level − 1) × 2` spaces, and a terminating blank line; and on the spec
example document at depth 3 the rendered TOC also lists `Title` (level 1)
and indents the level-2/3 entries accordingly. -/
theorem generate_toc_format :
    (∀ hs : List Heading, hs ≠ [] →
      (∀ h ∈ hs, '\n' ∉ h.text ∧ '\n' ∉ h.anchor) →
      splitLines (generate_toc hs).data =
        "## 目次".data :: [] ::
          hs.map (fun h => List.replicate ((h.level - 1) * 2) ' ' ++
            ['-', ' ', '['] ++ h.text ++ [']', '(', '#'] ++ h.anchor ++ [')'])
          ++ [[]]) ∧
    generate_toc (extract_headings "# Title\n\n## Intro\n## Details\n### Sub\n" 3) =
      "## 目次\n\n- [Title](#title)\n  - [Intro](#intro)\n  - [Details](#details)\n    - [Sub](#sub)\n" := by
  constructor
  · intro hs hne hf
    rw [splitLines_generate_toc hne hf]
    rfl
  · decide

/-- Witness for the amended C4: the format equation instantiated on the
headings extracted from the spec example document. -/
theorem generate_toc_format_witness :
    splitLines (generate_toc
        (extract_headings "# Title\n\n## Intro\n## Details\n### Sub\n" 3)).data =
      "## 目次".data :: [] ::
        (extract_headings "# Title\n\n## Intro\n## Details\n### Sub\n" 3).map
          (fun h => List.replicate ((h.level - 1) * 2) ' ' ++
            ['-', ' ', '['] ++ h.text ++ [']', '(', '#'] ++ h.anchor ++ [')'])
        ++ [[]] :=
  generate_toc_format.1 _ (by decide) (by decide)

/-! ## Locating the TOC block inside spliced line lists -/

theorem locator_spliced {pre : List (List Char)} (post : List (List Char))
    (hs : List Heading)
    (hpre : ∀ x ∈ pre, isTocHeader (pyStrip x) = false) :
    findTocStart 0 (pre ++ tocLines hs ++ post) = some pre.length := by
  have hassoc : pre ++ tocLines hs ++ post =
      pre ++ "## 目次".data ::
        (([] :: (hs.map tocEntryLine ++ [[]])) ++ post) := by
    simp [tocLines]
  rw [hassoc, findTocStart_append hpre (by decide)]
  simp

theorem getD_spliced (pre post : List (List Char)) (hs : List Heading)
    (k : Nat) (hk : k < (tocLines hs).length) :
    (pre ++ tocLines hs ++ post).getD (pre.length + k) [] =
      (tocLines hs).getD k [] := by
  rw [List.append_assoc, List.getD_append_right _ _ _ _ (by omega),
    show pre.length + k - pre.length = k from by omega,
    List.getD_append _ _ _ _ hk]

theorem countP_spliced (pre post : List (List Char)) (hs : List Heading) :
    (pre ++ tocLines hs ++ post).countP (fun l => isTocHeader (pyStrip l)) =
      pre.countP (fun l => isTocHeader (pyStrip l)) + 1 +
        post.countP (fun l => isTocHeader (pyStrip l)) := by
  rw [List.countP_append, List.countP_append, countP_tocLines]

theorem locator_isSome_of (lines : List (List Char)) (idxH idxNB : Nat)
    (hH : idxH < lines.length)
    (hHdr : isTocHeader (pyStrip (lines.getD idxH [])) = true)
    (hNB : idxNB < lines.length) (hlt : idxH < idxNB)
    (hnb : pyStrip (lines.getD idxNB []) ≠ []) :
    ∃ s e, findTocStart 0 lines = some s ∧ s ≤ idxH ∧
      findTocEnd lines s = some e := by
  cases hS : findTocStart 0 lines with
  | none =>
    have hmem : lines.getD idxH [] ∈ lines := by
      rw [List.getD_eq_getElem _ _ hH]
      exact List.getElem_mem _
    have := findTocStart_eq_none_iff.mp hS _ hmem
    rw [hHdr] at this
    exact absurd this (by simp)
  | some s =>
    obtain ⟨j, hj, hsj, _, hmin⟩ := findTocStart_eq_some_iff.mp hS
    have hs_le : s ≤ idxH := by
      by_contra hgt
      push_neg at hgt
      have := hmin idxH (by omega)
      rw [hHdr] at this
      exact absurd this (by simp)
    have hend := @findTocEnd_ne_none_of_nonblank lines s
      ⟨idxNB, by omega, hNB, hnb⟩
    cases hE : findTocEnd lines s with
    | none => exact absurd hE hend
    | some e => exact ⟨s, e, rfl, hs_le, hE⟩

theorem find_existing_toc_eq {content : String} {s e : Nat}
    (h1 : findTocStart 0 (splitLines content.data) = some s)
    (h2 : findTocEnd (splitLines content.data) s = some e) :
    find_existing_toc content = (some s, some e) := by
  simp only [find_existing_toc]
  rw [h1]
  show (some s, findTocEnd (splitLines content.data) s) = (some s, some e)
  rw [h2]

theorem find_existing_toc_fst_none {content : String}
    (h : (find_existing_toc content).1 = none) :
    find_existing_toc content = (none, none) := by
  simp only [find_existing_toc] at h ⊢
  cases hS : findTocStart 0 (splitLines content.data) with
  | none => rfl
  | some s =>
    rw [hS] at h
    simp at h

theorem insert_or_update_toc_replace {content toc : String} {s e : Nat}
    (h : find_existing_toc content = (some s, some e)) :
    insert_or_update_toc content toc = String.mk (joinLines
      ((splitLines content.data).take s ++ splitLines toc.data ++
        (splitLines content.data).drop e)) := by
  simp only [insert_or_update_toc]
  rw [h]

theorem insert_or_update_toc_insert {content toc : String}
    (h : (find_existing_toc content).2 = none) :
    insert_or_update_toc content toc = String.mk (joinLines
      ((splitLines content.data).take (insertPos (splitLines content.data)) ++
        [[]] ++ splitLines toc.data ++
        (splitLines content.data).drop (insertPos (splitLines content.data)))) := by
  simp only [insert_or_update_toc]
  rcases hP : find_existing_toc content with ⟨oS, oE⟩
  rw [hP] at h
  simp only at h
  subst h
  cases oS with
  | none => rfl
  | some s => rfl

/-- **C1 amended.**  The pipeline is not idempotent (see the
counterexample), but re-running it never inserts a duplicate block:
whenever the document has at least one heading at or below the depth,
the pipeline's output contains a locatable TOC block with both bounds
found, so a second run takes the replacement branch of
`insert_or_update_toc` rather than the insertion branch. -/
theorem pipeline_second_run_replaces (D : String) (d : Nat)
    (hne : extract_headings D d ≠ []) :
    ∃ s e, find_existing_toc (runPipeline D d) = (some s, some e) := by
  obtain ⟨h0, t0, hcons⟩ : ∃ h0 t0, extract_headings D d = h0 :: t0 := by
    cases hE : extract_headings D d with
    | nil => exact absurd hE hne
    | cons a b => exact ⟨a, b, rfl⟩
  have hf : ∀ h ∈ extract_headings D d, '\n' ∉ h.text ∧ '\n' ∉ h.anchor :=
    fun h hm => extract_headings_no_newline hm
  have htocL : splitLines (generate_toc (extract_headings D d)).data =
      tocLines (extract_headings D d) := splitLines_generate_toc hne hf
  have hlineNN : ∀ l ∈ splitLines D.data, '\n' ∉ l :=
    not_newline_mem_splitLines D.data
  have htocNN : ∀ l ∈ tocLines (extract_headings D d), '\n' ∉ l :=
    not_newline_mem_tocLines hf
  have main : ∀ pre post : List (List Char),
      (∀ l ∈ pre, '\n' ∉ l) → (∀ l ∈ post, '\n' ∉ l) →
      ∃ s e, find_existing_toc (String.mk (joinLines
        (pre ++ tocLines (extract_headings D d) ++ post))) =
        (some s, some e) := by
    intro pre post hpreNN hpostNN
    have hsplit : splitLines (String.mk (joinLines
        (pre ++ tocLines (extract_headings D d) ++ post))).data =
        pre ++ tocLines (extract_headings D d) ++ post := by
      show splitLines (joinLines _) = _
      refine splitLines_joinLines ?_ ?_
      · simp [tocLines]
      · intro l hl
        rcases List.mem_append.mp hl with hl | hl
        · rcases List.mem_append.mp hl with hl | hl
          · exact hpreNN l hl
          · exact htocNN l hl
        · exact hpostNN l hl
    have hHdr : isTocHeader (pyStrip
        ((pre ++ tocLines (extract_headings D d) ++ post).getD
          (pre.length + 0) [])) = true := by
      rw [getD_spliced _ _ _ 0 (by simp [tocLines])]
      rw [show (tocLines (extract_headings D d)).getD 0 [] = "## 目次".data
        from rfl]
      decide
    have hEntry : pyStrip ((pre ++ tocLines (extract_headings D d) ++ post).getD
        (pre.length + 2) []) ≠ [] := by
      rw [getD_spliced _ _ _ 2 (by simp [tocLines])]
      rw [hcons]
      rw [show (tocLines (h0 :: t0)).getD 2 [] = tocEntryLine h0 from rfl]
      exact pyStrip_tocEntryLine_ne_nil h0
    have hlen : pre.length + 2 <
        (pre ++ tocLines (extract_headings D d) ++ post).length := by
      simp [tocLines, List.length_append]
    obtain ⟨s, e, hS, _, hE⟩ := locator_isSome_of _ pre.length (pre.length + 2)
      (by omega) (by simpa using hHdr) hlen (by omega) hEntry
    exact ⟨s, e, find_existing_toc_eq (by rw [hsplit]; exact hS)
      (by rw [hsplit]; exact hE)⟩
  rcases hP : find_existing_toc D with ⟨oS, oE⟩
  cases oE with
  | some e0 =>
    cases oS with
    | none =>
      have hc := @find_existing_toc_fst_none D (by rw [hP])
      rw [hP] at hc
      simp at hc
    | some s0 =>
      have hrepl := @insert_or_update_toc_replace D
        (generate_toc (extract_headings D d)) s0 e0 hP
      unfold runPipeline
      rw [hrepl, htocL]
      exact main _ _ (fun l hl => hlineNN l (List.take_subset _ _ hl))
        (fun l hl => hlineNN l (List.drop_subset _ _ hl))
  | none =>
    have hins := @insert_or_update_toc_insert D
      (generate_toc (extract_headings D d)) (by rw [hP])
    unfold runPipeline
    rw [hins, htocL]
    apply main
    · intro l hl
      rcases List.mem_append.mp hl with hl | hl
      · exact hlineNN l (List.take_subset _ _ hl)
      · rcases List.mem_singleton.mp hl with rfl
        simp
    · intro l hl
      exact hlineNN l (List.drop_subset _ _ hl)

/-- Witness for the amended C1: on `"## A"` at depth 2 the first run's
output contains a locatable block with both bounds. -/
theorem pipeline_second_run_replaces_witness :
    ∃ s e, find_existing_toc (runPipeline "## A" 2) = (some s, some e) :=
  pipeline_second_run_replaces "## A" 2 (by decide)

theorem findTocStart_none_of {content : String}
    (h : find_existing_toc content = (none, none)) :
    findTocStart 0 (splitLines content.data) = none := by
  simp only [find_existing_toc] at h
  cases hS : findTocStart 0 (splitLines content.data) with
  | none => rfl
  | some s => rw [hS] at h; simp at h

theorem find_existing_toc_eq_none_end {content : String} {s : Nat}
    (h1 : findTocStart 0 (splitLines content.data) = some s)
    (h2 : findTocEnd (splitLines content.data) s = none) :
    find_existing_toc content = (some s, none) := by
  simp only [find_existing_toc]
  rw [h1]
  show (some s, findTocEnd (splitLines content.data) s) = (some s, none)
  rw [h2]

theorem headerless_take {lines : List (List Char)} {s : Nat}
    (h : ∀ m, m < s → isTocHeader (pyStrip (lines.getD m [])) = false) :
    ∀ x ∈ lines.take s, isTocHeader (pyStrip x) = false := by
  intro x hx
  obtain ⟨i, hi, he⟩ := List.getElem_of_mem hx
  have his : i < s := by
    have h2 := hi
    rw [List.length_take] at h2
    omega
  have hgq : (lines.take s)[i]? = lines[i]? := List.getElem?_take_of_lt his
  have hgetD : lines.getD i [] = x := by
    rw [List.getD_eq_getElem?_getD, ← hgq, List.getElem?_eq_getElem hi, ← he]
    rfl
  rw [← hgetD]
  exact h i his

theorem blank_drop {lines : List (List Char)} {s : Nat}
    (h : ∀ j, s < j → j < lines.length → pyStrip (lines.getD j []) = []) :
    ∀ x ∈ lines.drop (s + 1), pyStrip x = [] := by
  intro x hx
  obtain ⟨i, hi, he⟩ := List.getElem_of_mem hx
  have hlen := hi
  rw [List.length_drop] at hlen
  have hgq : (lines.drop (s + 1))[i]? = lines[s + 1 + i]? := by
    rw [List.getElem?_drop]
  have hgetD : lines.getD (s + 1 + i) [] = x := by
    rw [List.getD_eq_getElem?_getD, ← hgq, List.getElem?_eq_getElem hi, ← he]
    rfl
  rw [← hgetD]
  exact h (s + 1 + i) (by omega) (by omega)

/-! ## Claim C7: round-trip after inserting into a TOC-free document -/

/-- **C7** (confirmed).  If `find_existing_toc` finds no recognized TOC
block in `D` and `hs` is a non-empty heading sequence (with newline-free
text and anchors, as extraction produces), then after splicing the
rendered TOC into `D` the locator finds a block, its header line is
exactly `## 目次`, and the result contains exactly one recognized TOC
header line. -/
theorem roundtrip_locates_inserted (D : String) (hs : List Heading)
    (hnone : (find_existing_toc D).1 = none) (hne : hs ≠ [])
    (hf : ∀ h ∈ hs, '\n' ∉ h.text ∧ '\n' ∉ h.anchor) :
    ∃ s, (find_existing_toc (insert_or_update_toc D (generate_toc hs))).1 =
        some s ∧
      pyStrip ((splitLines (insert_or_update_toc D
        (generate_toc hs)).data).getD s []) = "## 目次".data ∧
      countTocHeaders (insert_or_update_toc D (generate_toc hs)) = 1 := by
  have hP := find_existing_toc_fst_none hnone
  have hnoHdr : ∀ l ∈ splitLines D.data, isTocHeader (pyStrip l) = false :=
    findTocStart_eq_none_iff.mp (findTocStart_none_of hP)
  have hins := @insert_or_update_toc_insert D (generate_toc hs)
    (by rw [hP])
  have htocL : splitLines (generate_toc hs).data = tocLines hs :=
    splitLines_generate_toc hne hf
  rw [hins, htocL]
  have hple := insertPos_le (splitLines D.data)
  have hNN : ∀ l ∈ (splitLines D.data).take (insertPos (splitLines D.data)) ++
      [[]] ++ tocLines hs ++
      (splitLines D.data).drop (insertPos (splitLines D.data)), '\n' ∉ l := by
    intro l hl
    rcases List.mem_append.mp hl with hl | hl
    · rcases List.mem_append.mp hl with hl | hl
      · rcases List.mem_append.mp hl with hl | hl
        · exact not_newline_mem_splitLines D.data l (List.take_subset _ _ hl)
        · rcases List.mem_singleton.mp hl with rfl
          simp
      · exact not_newline_mem_tocLines hf l hl
    · exact not_newline_mem_splitLines D.data l (List.drop_subset _ _ hl)
  have hsplit : splitLines (String.mk (joinLines
      ((splitLines D.data).take (insertPos (splitLines D.data)) ++ [[]] ++
        tocLines hs ++
        (splitLines D.data).drop (insertPos (splitLines D.data))))).data =
      (splitLines D.data).take (insertPos (splitLines D.data)) ++ [[]] ++
        tocLines hs ++
        (splitLines D.data).drop (insertPos (splitLines D.data)) := by
    show splitLines (joinLines _) = _
    exact splitLines_joinLines (by simp [tocLines]) hNN
  have hpre : ∀ x ∈ (splitLines D.data).take (insertPos (splitLines D.data)) ++
      [[]], isTocHeader (pyStrip x) = false := by
    intro x hx
    rcases List.mem_append.mp hx with hx | hx
    · exact hnoHdr x (List.take_subset _ _ hx)
    · rcases List.mem_singleton.mp hx with rfl
      decide
  have hstart : findTocStart 0
      (((splitLines D.data).take (insertPos (splitLines D.data)) ++ [[]]) ++
        tocLines hs ++
        (splitLines D.data).drop (insertPos (splitLines D.data))) =
      some ((splitLines D.data).take (insertPos (splitLines D.data)) ++
        [[]]).length := locator_spliced _ hs hpre
  have hplen : ((splitLines D.data).take (insertPos (splitLines D.data)) ++
      [[]]).length = insertPos (splitLines D.data) + 1 := by
    simp [List.length_take]
    omega
  rw [hplen] at hstart
  have hpair : find_existing_toc (String.mk (joinLines
      ((splitLines D.data).take (insertPos (splitLines D.data)) ++ [[]] ++
        tocLines hs ++
        (splitLines D.data).drop (insertPos (splitLines D.data))))) =
      (some (insertPos (splitLines D.data) + 1),
        findTocEnd ((splitLines D.data).take (insertPos (splitLines D.data)) ++
          [[]] ++ tocLines hs ++
          (splitLines D.data).drop (insertPos (splitLines D.data)))
          (insertPos (splitLines D.data) + 1)) := by
    simp only [find_existing_toc]
    rw [hsplit, hstart]
  refine ⟨insertPos (splitLines D.data) + 1, ?_, ?_, ?_⟩
  · rw [hpair]
  · rw [hsplit]
    rw [show insertPos (splitLines D.data) + 1 =
      ((splitLines D.data).take (insertPos (splitLines D.data)) ++
        [[]]).length + 0 from by rw [hplen]]
    rw [getD_spliced _ _ _ 0 (by simp [tocLines]),
      show (tocLines hs).getD 0 [] = "## 目次".data from rfl]
    decide
  · unfold countTocHeaders
    rw [hsplit, countP_spliced]
    rw [List.countP_eq_zero.mpr (fun a ha => by simp [hpre a ha])]
    rw [List.countP_eq_zero.mpr (fun a ha => by
      simp [hnoHdr a (List.drop_subset _ _ ha)])]

/-- Witness for C7 on a concrete TOC-free document and heading list. -/
theorem roundtrip_locates_inserted_witness :
    ∃ s, (find_existing_toc (insert_or_update_toc "# T\nx"
        (generate_toc [⟨2, ['A'], ['a'], 1⟩]))).1 = some s ∧
      pyStrip ((splitLines (insert_or_update_toc "# T\nx"
        (generate_toc [⟨2, ['A'], ['a'], 1⟩])).data).getD s []) =
        "## 目次".data ∧
      countTocHeaders (insert_or_update_toc "# T\nx"
        (generate_toc [⟨2, ['A'], ['a'], 1⟩])) = 1 :=
  roundtrip_locates_inserted "# T\nx" [⟨2, ['A'], ['a'], 1⟩]
    (by decide) (by decide) (by decide)

/-! ## Claim C10: header followed only by blank lines -/

/-- **C10** (confirmed).  If the first recognized TOC header of `D` sits
at index `s` and every later line is blank (or the header is the last
line), `find_existing_toc` returns `(some s, none)`; splicing a rendered
non-empty TOC therefore takes the insertion branch, and the result
contains two recognized TOC header lines. -/
theorem trailing_blank_header_duplicates (D : String) (s : Nat)
    (hs : List Heading)
    (hs0 : s < (splitLines D.data).length)
    (hhdr : isTocHeader (pyStrip ((splitLines D.data).getD s [])) = true)
    (hfirst : ∀ m, m < s →
      isTocHeader (pyStrip ((splitLines D.data).getD m [])) = false)
    (hblank : ∀ j, s < j → j < (splitLines D.data).length →
      pyStrip ((splitLines D.data).getD j []) = [])
    (hne : hs ≠ []) (hf : ∀ h ∈ hs, '\n' ∉ h.text ∧ '\n' ∉ h.anchor) :
    find_existing_toc D = (some s, none) ∧
      countTocHeaders (insert_or_update_toc D (generate_toc hs)) = 2 := by
  have hstart : findTocStart 0 (splitLines D.data) = some s :=
    findTocStart_eq_some_iff.mpr ⟨s, hs0, by omega, hhdr, hfirst⟩
  have hend : findTocEnd (splitLines D.data) s = none :=
    findTocEnd_eq_none_of_blank hs0 hblank
  have hPair : find_existing_toc D = (some s, none) :=
    find_existing_toc_eq_none_end hstart hend
  refine ⟨hPair, ?_⟩
  have hins := @insert_or_update_toc_insert D (generate_toc hs)
    (by rw [hPair])
  have htocL : splitLines (generate_toc hs).data = tocLines hs :=
    splitLines_generate_toc hne hf
  rw [hins, htocL]
  have hNN : ∀ l ∈ (splitLines D.data).take (insertPos (splitLines D.data)) ++
      [[]] ++ tocLines hs ++
      (splitLines D.data).drop (insertPos (splitLines D.data)), '\n' ∉ l := by
    intro l hl
    rcases List.mem_append.mp hl with hl | hl
    · rcases List.mem_append.mp hl with hl | hl
      · rcases List.mem_append.mp hl with hl | hl
        · exact not_newline_mem_splitLines D.data l (List.take_subset _ _ hl)
        · rcases List.mem_singleton.mp hl with rfl
          simp
      · exact not_newline_mem_tocLines hf l hl
    · exact not_newline_mem_splitLines D.data l (List.drop_subset _ _ hl)
  have hsplit : splitLines (String.mk (joinLines
      ((splitLines D.data).take (insertPos (splitLines D.data)) ++ [[]] ++
        tocLines hs ++
        (splitLines D.data).drop (insertPos (splitLines D.data))))).data =
      (splitLines D.data).take (insertPos (splitLines D.data)) ++ [[]] ++
        tocLines hs ++
        (splitLines D.data).drop (insertPos (splitLines D.data)) := by
    show splitLines (joinLines _) = _
    exact splitLines_joinLines (by simp [tocLines]) hNN
  have hlsplit : splitLines D.data =
      (splitLines D.data).take s ++
        (splitLines D.data).getD s [] :: (splitLines D.data).drop (s + 1) := by
    conv_lhs => rw [← List.take_append_drop s (splitLines D.data)]
    rw [List.drop_eq_getElem_cons hs0, List.getD_eq_getElem _ _ hs0]
  have hcount1 : (splitLines D.data).countP
      (fun l => isTocHeader (pyStrip l)) = 1 := by
    conv_lhs => rw [hlsplit]
    rw [List.countP_append, List.countP_cons]
    rw [List.countP_eq_zero.mpr (fun a ha => by
      simp [headerless_take hfirst a ha])]
    rw [List.countP_eq_zero.mpr (fun a ha => by
      intro hT
      rw [blank_drop hblank a ha] at hT
      exact absurd hT (by decide))]
    have hhdr' : isTocHeader (pyStrip ((splitLines D.data)[s]?.getD [])) = true := by
      rw [← List.getD_eq_getElem?_getD]
      exact hhdr
    simp [hhdr']
  unfold countTocHeaders
  rw [hsplit, countP_spliced]
  have hparts : ((splitLines D.data).take
        (insertPos (splitLines D.data))).countP
          (fun l => isTocHeader (pyStrip l)) +
      ((splitLines D.data).drop
        (insertPos (splitLines D.data))).countP
          (fun l => isTocHeader (pyStrip l)) = 1 := by
    rw [← List.countP_append,
      List.take_append_drop (insertPos (splitLines D.data)) (splitLines D.data)]
    exact hcount1
  rw [List.countP_append]
  rw [show (([[]] : List (List Char)).countP
    (fun l => isTocHeader (pyStrip l))) = 0 from by decide]
  omega

/-- Witness for C10 on `"## TOC\n\n"` (header at index 0, two trailing
blank lines). -/
theorem trailing_blank_header_duplicates_witness :
    find_existing_toc "## TOC\n\n" = (some 0, none) ∧
      countTocHeaders (insert_or_update_toc "## TOC\n\n"
        (generate_toc [⟨2, ['A'], ['a'], 1⟩])) = 2 :=
  trailing_blank_header_duplicates "## TOC\n\n" 0 [⟨2, ['A'], ['a'], 1⟩]
    (by decide) (by decide)
    (fun m hm => absurd hm (by omega))
    (fun j h1 h2 => by
      have hj : j < 3 := by simpa using h2
      interval_cases j
      · decide
      · decide)
    (by decide) (by decide)

/-! ## Claim C3: the TOC locator's boundary detection -/

/-- **C3 counterexample.**  On `"## TOC\n\nx\n\ny"` the content rule
triggers at the line `x` with no non-blank line strictly between the
header and the trigger.  The claim's rules (faithfully computed by
`claimLocator`: the backward scan's result is the end, and the remainder
fallback applies only when neither condition triggers) then produce no
end bound, but `find_existing_toc` still applies the remainder fallback
and returns end = 5. -/
theorem toc_locator_claim_mismatch :
    claimLocator "## TOC\n\nx\n\ny" = (some 0, none) ∧
    find_existing_toc "## TOC\n\nx\n\ny" = (some 0, some 5) ∧
    claimLocator "## TOC\n\nx\n\ny" ≠ find_existing_toc "## TOC\n\nx\n\ny" := by
  refine ⟨by decide, by decide, by decide⟩

/-- **C3 amended.**  `find_existing_toc` takes as start the first line
whose trimmed text is a recognized header (not-found if none, and then
no end either).  Scanning forward from start, the heading rule and the
content rule are tested per line; at the first line where one fires: a
level-1/level-2 heading gives that index as end; otherwise, if a
non-blank line exists strictly between the header and the trigger, end
is one past the last such line; otherwise — the case the original claim
omits — end falls back to one past the last non-blank line in the whole
remainder of the document.  If no line fires, end is one past the last
non-blank line of the remainder, or `none` when the remainder is all
blank. -/
theorem find_existing_toc_spec (content : String) :
    ((find_existing_toc content).1 = none ↔
      ∀ l ∈ splitLines content.data, isTocHeader (pyStrip l) = false) ∧
    ((find_existing_toc content).1 = none →
      (find_existing_toc content).2 = none) ∧
    (∀ i, (find_existing_toc content).1 = some i →
      i < (splitLines content.data).length ∧
      isTocHeader (pyStrip ((splitLines content.data).getD i [])) = true ∧
      ∀ m, m < i →
        isTocHeader (pyStrip ((splitLines content.data).getD m [])) = false) ∧
    (∀ i, (find_existing_toc content).1 = some i →
      ((∀ j, i < j → j < (splitLines content.data).length →
          ¬ trigAt (splitLines content.data) i j) →
        ((∀ m, i < m → m < (splitLines content.data).length →
            pyStrip ((splitLines content.data).getD m []) = []) →
          (find_existing_toc content).2 = none) ∧
        (∀ m, i < m → m < (splitLines content.data).length →
          pyStrip ((splitLines content.data).getD m []) ≠ [] →
          (∀ m', m < m' → m' < (splitLines content.data).length →
            pyStrip ((splitLines content.data).getD m' []) = []) →
          (find_existing_toc content).2 = some (m + 1))) ∧
      (∀ j, i < j → j < (splitLines content.data).length →
        trigAt (splitLines content.data) i j →
        (∀ j', i < j' → j' < j → ¬ trigAt (splitLines content.data) i j') →
        ((isH12 (pyStrip ((splitLines content.data).getD j [])) = true →
          (find_existing_toc content).2 = some j) ∧
        (isH12 (pyStrip ((splitLines content.data).getD j [])) = false →
          (∀ k, i < k → k < j →
            pyStrip ((splitLines content.data).getD k []) ≠ [] →
            (∀ k', k < k' → k' < j →
              pyStrip ((splitLines content.data).getD k' []) = []) →
            (find_existing_toc content).2 = some (k + 1)) ∧
          ((∀ k, i < k → k < j →
              pyStrip ((splitLines content.data).getD k []) = []) →
            ∀ m, i < m → m < (splitLines content.data).length →
              pyStrip ((splitLines content.data).getD m []) ≠ [] →
              (∀ m', m < m' → m' < (splitLines content.data).length →
                pyStrip ((splitLines content.data).getD m' []) = []) →
              (find_existing_toc content).2 = some (m + 1)))))) := by
  cases hS : findTocStart 0 (splitLines content.data) with
  | none =>
    have hfe : find_existing_toc content = (none, none) := by
      simp only [find_existing_toc]
      rw [hS]
    refine ⟨?_, ?_, ?_, ?_⟩
    · rw [hfe]
      simp only [true_iff]
      exact findTocStart_eq_none_iff.mp hS
    · intro _
      rw [hfe]
    · intro i hi
      rw [hfe] at hi
      simp at hi
    · intro i hi
      rw [hfe] at hi
      simp at hi
  | some i0 =>
    obtain ⟨j0, hj0, hij0, hhdr0, hmin0⟩ := findTocStart_eq_some_iff.mp hS
    have hj0i : j0 = i0 := by omega
    subst hj0i
    have hfe : find_existing_toc content =
        (some j0, findTocEnd (splitLines content.data) j0) := by
      simp only [find_existing_toc]
      rw [hS]
    refine ⟨?_, ?_, ?_, ?_⟩
    · rw [hfe]
      constructor
      · intro h
        exact absurd h (by simp)
      · intro hall
        exfalso
        have hmem : (splitLines content.data).getD j0 [] ∈
            splitLines content.data := by
          rw [List.getD_eq_getElem _ _ hj0]
          exact List.getElem_mem _
        have hc := hall _ hmem
        rw [hhdr0] at hc
        exact absurd hc (by simp)
    · intro h
      rw [hfe] at h
      simp at h
    · intro i hi
      rw [hfe] at hi
      have hieq : j0 = i := by simpa using hi
      cases hieq
      exact ⟨hj0, hhdr0, fun m hm => hmin0 m hm⟩
    · intro i hi
      rw [hfe] at hi
      have hieq : j0 = i := by simpa using hi
      cases hieq
      have hsnd : (find_existing_toc content).2 =
          findTocEnd (splitLines content.data) j0 := by
        rw [hfe]
      constructor
      · intro hnt
        have hscan : endScanAux (splitLines content.data) j0
            ((splitLines content.data).length - (j0 + 1)) (j0 + 1) = none :=
          endScanAux_eq_none (by omega) (fun j' h1 h2 => hnt j' (by omega) h2)
        have hfte : findTocEnd (splitLines content.data) j0 =
            backScanAux (splitLines content.data) j0
              ((splitLines content.data).length - 1) := by
          unfold findTocEnd
          rw [hscan]
        constructor
        · intro hblank
          rw [hsnd, hfte]
          exact backScanAux_eq_none_iff.mpr
            (fun m h1 h2 => hblank m h1 (by omega))
        · intro m h1 h2 h3 h4
          rw [hsnd, hfte]
          exact (@backScanAux_eq_some_iff (splitLines content.data)
              j0 ((splitLines content.data).length - 1) (m + 1)).mpr
            ⟨m, rfl, h1, by omega, h3, fun m' hm1 hm2 => h4 m' hm1 (by omega)⟩
      · intro j hij hjn htrig hminj
        have hscan : endScanAux (splitLines content.data) j0
            ((splitLines content.data).length - (j0 + 1)) (j0 + 1) =
            if isH12 (pyStrip ((splitLines content.data).getD j [])) then
              some j
            else backScanAux (splitLines content.data) j0 (j - 1) :=
          endScanAux_eq_of_first (by omega) (by omega) hjn htrig
            (fun j' h1 h2 => hminj j' (by omega) h2)
        constructor
        · intro hH
          rw [hsnd]
          unfold findTocEnd
          rw [hscan, if_pos hH]
        · intro hH
          rw [Bool.eq_false_iff] at hH
          constructor
          · intro k h1 h2 h3 h4
            rw [hsnd]
            unfold findTocEnd
            rw [hscan, if_neg hH]
            rw [(@backScanAux_eq_some_iff (splitLines content.data)
                j0 (j - 1) (k + 1)).mpr
              ⟨k, rfl, h1, by omega, h3, fun k' hk1 hk2 => h4 k' hk1 (by omega)⟩]
          · intro hblank m h1 h2 h3 h4
            rw [hsnd]
            unfold findTocEnd
            rw [hscan, if_neg hH]
            rw [(@backScanAux_eq_none_iff (splitLines content.data)
                j0 (j - 1)).mpr
              (fun k h1' h2' => hblank k h1' (by omega))]
            exact (@backScanAux_eq_some_iff (splitLines content.data)
                j0 ((splitLines content.data).length - 1) (m + 1)).mpr
              ⟨m, rfl, h1, by omega, h3, fun m' hm1 hm2 => h4 m' hm1 (by omega)⟩

/-- Witness for the amended C3: on `"## TOC\n- a\n## B"` the first
trigger is the level-2 heading at line index 2, so the end bound is 2. -/
theorem find_existing_toc_spec_witness :
    (find_existing_toc "## TOC\n- a\n## B").2 = some 2 :=
  (((find_existing_toc_spec "## TOC\n- a\n## B").2.2.2 0 (by decide)).2 2
    (by decide) (by decide) (by decide)
    (fun j' h1 h2 => by
      interval_cases j'
      decide)).1 (by decide)
